import Mathlib

/-!
# Verification of the `token` package (lexer and token stream)

Shallow embedding of `src/token/token.go`.

* A Go `string` / `[]byte` is a `List Byte`.
* `bufio.Reader` over an in-memory source is `Reader`: the unread bytes plus the
  `lastByte` marker that `UnreadByte` consults.
* Methods with a pointer receiver take the receiver and return the updated receiver.
* A Go run-time panic is `Res.panic`; the `for` loops are fuelled and `Res.outOfFuel`
  is the (separate) outcome of a loop that was cut short by the fuel.
* `int` counters (`col`, `line`, `idx`) are `Nat`: they only grow by one per consumed
  byte or token, so a 64-bit overflow needs more than `2^63` bytes of input.
-/

namespace token

/-! ## Data model -/

abbrev Byte := UInt8

/-- The bytes of an ASCII string literal. -/
def bytes (s : String) : List Byte := s.toList.map (fun c => c.toNat.toUInt8)

structure Position where
  Line : Nat
  Column : Nat
deriving DecidableEq

inductive TokenType where
  | Ident
  | StringLit
  | Semicolon
  | Comment
  | LBracket
  | RBracket
  | EOF
deriving DecidableEq

/-- The Go field `Type` is spelled `Typ` (`Type` is reserved). -/
structure Token where
  Typ : TokenType
  Text : List Byte
  Pos : Position
deriving DecidableEq

def NewToken (text : List Byte) (pos : Position) (t : TokenType) : Token :=
  { Typ := t, Text := text, Pos := pos }

/-- The error values that can flow through the lexer: `io.EOF`,
`bufio.ErrInvalidUnreadByte`, `bufio.ErrBufferFull`, and the two `fmt.Errorf` wrappers
of the package. -/
inductive Error where
  | EOF
  | ErrInvalidUnreadByte
  | ErrBufferFull
  | Bug (err : Error)
  | ErrPos (line col : Nat) (err : Error)
deriving DecidableEq

/-- Outcome of running a piece of the lexer: a normal return, a Go panic, or the
loop fuel of the embedding running out. -/
inductive Res (α : Type) where
  | ok (a : α)
  | panic
  | outOfFuel
deriving DecidableEq

def Res.bind {α β : Type} (r : Res α) (f : α → Res β) : Res β :=
  match r with
  | Res.ok a => f a
  | Res.panic => Res.panic
  | Res.outOfFuel => Res.outOfFuel

/-! ## `bufio.Reader` over an in-memory byte source -/

structure Reader where
  data : List Byte
  lastByte : Option Byte
deriving DecidableEq

def NewReader (data : List Byte) : Reader := { data := data, lastByte := none }

/-- The buffer size of the reader that `bufio.NewReader` builds over a plain byte
source (`defaultBufSize` in package `bufio`). -/
def defaultBufSize : Nat := 4096

/-- Go `Peek(n)`: the next `n` bytes without consuming. When `n` exceeds the buffer
size it returns what the buffer holds together with `ErrBufferFull`; with fewer than
`n` bytes left it returns what is left together with `io.EOF`. Invalidates `lastByte`. -/
def Reader.Peek (b : Reader) (n : Nat) : List Byte × Option Error × Reader :=
  let b := { b with lastByte := none }
  if n > defaultBufSize then (b.data.take defaultBufSize, some Error.ErrBufferFull, b)
  else if b.data.length < n then (b.data, some Error.EOF, b)
  else (b.data.take n, none, b)

def Reader.ReadByte (b : Reader) : Byte × Option Error × Reader :=
  match b.data with
  | [] => (0, some Error.EOF, b)
  | c :: rest => (c, none, { data := rest, lastByte := some c })

/-- Go `UnreadByte`: fails unless the most recent operation was a successful `ReadByte`. -/
def Reader.UnreadByte (b : Reader) : Option Error × Reader :=
  match b.lastByte with
  | none => (some Error.ErrInvalidUnreadByte, b)
  | some c => (none, { data := c :: b.data, lastByte := none })

/-- Go `Discard(n)`: skips `n` bytes; with fewer left it skips them all and reports `io.EOF`. -/
def Reader.Discard (b : Reader) (n : Nat) : Nat × Option Error × Reader :=
  if n = 0 then (0, none, b)
  else if b.data.length < n then (b.data.length, some Error.EOF, { data := [], lastByte := none })
  else (n, none, { data := b.data.drop n, lastByte := none })

/-! ## Lexer -/

structure Lexer where
  col : Nat
  line : Nat
  buf : Reader
deriving DecidableEq

/-- The zero value `Lexer{}` that the tests and callers start from; its reader is
installed by `parse` before any use. -/
def Lexer.fresh : Lexer := { col := 0, line := 0, buf := NewReader [] }

def Lexer.Peek1 (l : Lexer) : Byte × Option Error × Lexer :=
  match l.buf.Peek 1 with
  | (_, some err, r) => (0, some err, { l with buf := r })
  | (s, none, r) => (s.headD 0, none, { l with buf := r })

def Lexer.PeekStr (l : Lexer) (str : List Byte) : Bool × Lexer :=
  let n := str.length
  match l.buf.Peek n with
  | (_, some _, r) => (false, { l with buf := r })
  | (peeked, none, r) => (decide (peeked = str), { l with buf := r })

def Lexer.PeekByte (l : Lexer) (c : Byte) : Bool × Lexer :=
  match l.Peek1 with
  | (_, some _, l) => (false, l)
  | (p, none, l) => (decide (p = c), l)

/-- Lexer `Discard`: panics when the reader reports an error. -/
def Lexer.Discard (l : Lexer) (n : Nat) : Res Lexer :=
  match l.buf.Discard n with
  | (_, some _, _) => Res.panic
  | (_, none, r) => Res.ok { l with buf := r }

def Lexer.curPos (l : Lexer) : Position := { Line := l.line, Column := l.col }

def Lexer.ErrPos (l : Lexer) (err : Error) : Error := Error.ErrPos l.line l.col err

/-- The `for` loop of `ReadUntilWhiteSpace`; `buf` is the accumulated text.
Bytes: 59 `;`, 32 space, 9 tab, 13 CR, 10 LF. -/
def Lexer.ReadUntilWhiteSpaceLoop : Nat → Lexer → List Byte → Res (List Byte × Option Error × Lexer)
  | 0, _, _ => Res.outOfFuel
  | fuel + 1, l, buf =>
    match l.buf.ReadByte with
    | (_, some err, r) => Res.ok (buf, some err, { l with buf := r })
    | (b, none, r) =>
      let l := { l with buf := r }
      if b = 59 then
        match l.buf.UnreadByte with
        | (some err, r) => Res.ok (buf, some (Error.Bug err), { l with buf := r })
        | (none, r) => Res.ok (buf, none, { l with buf := r })
      else
        let l := { l with col := l.col + 1 }
        if b = 32 ∨ b = 9 then Res.ok (buf, none, l)
        else if b = 13 then
          match l.Peek1 with
          | (c, err, l) =>
            if err = none ∧ c = 10 then
              Res.ok (buf, none, { l with line := l.line + 1, col := 0 })
            else ReadUntilWhiteSpaceLoop fuel l (buf ++ [b])
        else if b = 10 then
          Res.ok (buf, none, { l with line := l.line + 1, col := 0 })
        else ReadUntilWhiteSpaceLoop fuel l (buf ++ [b])

def Lexer.ReadUntilWhiteSpace (l : Lexer) : Res (List Byte × Option Error × Lexer) :=
  l.ReadUntilWhiteSpaceLoop (l.buf.data.length + 1) []

/-- The `for` loop of `EatWhiteSpace`. In the CR branch the second `Peek1` looks at
the same, still unconsumed, byte as the first. -/
def Lexer.EatWhiteSpaceLoop : Nat → Lexer → Res Lexer
  | 0, _ => Res.outOfFuel
  | fuel + 1, l =>
    match l.Peek1 with
    | (_, some _, l) => Res.ok l
    | (b, none, l) =>
      if b = 32 ∨ b = 9 then
        (Lexer.Discard { l with col := l.col + 1 } 1).bind (EatWhiteSpaceLoop fuel)
      else if b = 13 then
        match l.Peek1 with
        | (c, err, l) =>
          if err = none ∧ c = 10 then
            (Lexer.Discard { l with line := l.line + 1, col := 0 } 2).bind (EatWhiteSpaceLoop fuel)
          else
            (Lexer.Discard { l with col := l.col + 1 } 1).bind (EatWhiteSpaceLoop fuel)
      else if b = 10 then
        (Lexer.Discard { l with line := l.line + 1, col := 0 } 1).bind (EatWhiteSpaceLoop fuel)
      else Res.ok l

def Lexer.EatWhiteSpace (l : Lexer) : Res Lexer :=
  l.EatWhiteSpaceLoop (l.buf.data.length + 1)

/-- The `for` loop of `ReadUntil`, with `delim = str[0]` and `n = len(str)`. -/
def Lexer.ReadUntilLoop (str : List Byte) (delim : Byte) (n : Nat) (incl : Bool) :
    Nat → Lexer → List Byte → Res (List Byte × Option Error × Lexer)
  | 0, _, _ => Res.outOfFuel
  | fuel + 1, l, buf =>
    match l.buf.ReadByte with
    | (_, some err, r) => Res.ok (buf, some err, { l with buf := r })
    | (b, none, r) =>
      let l := { l with buf := r, col := l.col + 1 }
      let l := if b = 10 then { l with line := l.line + 1, col := 0 } else l
      if b = delim then
        if n = 1 then
          Res.ok (if incl then buf ++ [b] else buf, none, l)
        else
          match l.buf.Peek (n - 1) with
          | (peeked, err, r) =>
            let l := { l with buf := r }
            if err = none ∧ peeked = str.drop 1 then
              match l.buf.Discard (n - 1) with
              | (_, _, r) =>
                let l := { l with buf := r, col := l.col + (n - 1) }
                Res.ok (if incl then buf ++ [b] ++ peeked else buf, none, l)
            else ReadUntilLoop str delim n incl fuel l (buf ++ [b])
      else ReadUntilLoop str delim n incl fuel l (buf ++ [b])

/-- Method `ReadUntil(str, include)`; indexing `str[0]` of an empty `str` panics. -/
def Lexer.ReadUntil (l : Lexer) (str : List Byte) (incl : Bool) :
    Res (List Byte × Option Error × Lexer) :=
  match str with
  | [] => Res.panic
  | delim :: _ => Lexer.ReadUntilLoop str delim str.length incl (l.buf.data.length + 1) l []

/-- What one pass of the `for` loop of `parse` ends with. -/
inductive Pass where
  /-- The pass ends with `tokens = append(tokens, t)` and the loop goes on. -/
  | append (t : Token) (l : Lexer)
  /-- The pass ends with `tokens = append(tokens, t); return tokens, nil`. -/
  | done (t : Token) (l : Lexer)
  /-- The pass ends with `return nil, err`. -/
  | fail (err : Error) (l : Lexer)
deriving DecidableEq

/-- The body of the `for` loop of `parse`: `EatWhiteSpace`, then the `switch`.
Bytes: 47 `/`, 42 `*`, 96 backtick, 34 `"`, 123 `{`, 125 `}`, 59 `;`, 10 LF, 13 CR. -/
def Lexer.parsePass (l : Lexer) : Res Pass :=
  l.EatWhiteSpace.bind fun l =>
  match l.PeekStr [47, 47] with
  | (true, l) =>
    (l.Discard 2).bind fun l =>
    let l := { l with col := l.col + 2 }
    let pos := l.curPos
    (l.ReadUntil [10] false).bind fun (commentText, err, l) =>
    let n := commentText.length
    let stripped :=
      if n > 0 ∧ commentText[n - 1]? = some 13 then commentText.take (n - 1) else commentText
    match err with
    | some e =>
      if e ≠ Error.EOF then Res.ok (Pass.fail (l.ErrPos e) l)
      else Res.ok (Pass.append (NewToken stripped pos TokenType.Comment) l)
    | none => Res.ok (Pass.append (NewToken stripped pos TokenType.Comment) l)
  | (false, l) =>
  match l.PeekStr [47, 42] with
  | (true, l) =>
    (l.Discard 2).bind fun l =>
    let l := { l with col := l.col + 2 }
    let pos := l.curPos
    (l.ReadUntil [42, 47] false).bind fun (commentText, err, l) =>
    match err with
    | some e => Res.ok (Pass.fail (l.ErrPos e) l)
    | none => Res.ok (Pass.append (NewToken commentText pos TokenType.Comment) l)
  | (false, l) =>
  match l.PeekByte 96 with
  | (true, l) =>
    (l.Discard 1).bind fun l =>
    let l := { l with col := l.col + 1 }
    let pos := l.curPos
    (l.ReadUntil [96] false).bind fun (strLit, err, l) =>
    match err with
    | some e => Res.ok (Pass.fail (l.ErrPos e) l)
    | none => Res.ok (Pass.append (NewToken strLit pos TokenType.StringLit) l)
  | (false, l) =>
  match l.PeekByte 34 with
  | (true, l) =>
    (l.Discard 1).bind fun l =>
    let l := { l with col := l.col + 1 }
    let pos := l.curPos
    (l.ReadUntil [34] false).bind fun (strLit, err, l) =>
    match err with
    | some e => Res.ok (Pass.fail (l.ErrPos e) l)
    | none => Res.ok (Pass.append (NewToken strLit pos TokenType.StringLit) l)
  | (false, l) =>
  match l.PeekByte 123 with
  | (true, l) =>
    (l.Discard 1).bind fun l =>
    let pos := l.curPos
    let l := { l with col := l.col + 1 }
    Res.ok (Pass.append (NewToken [123] pos TokenType.LBracket) l)
  | (false, l) =>
  match l.PeekByte 125 with
  | (true, l) =>
    (l.Discard 1).bind fun l =>
    let pos := l.curPos
    let l := { l with col := l.col + 1 }
    Res.ok (Pass.append (NewToken [125] pos TokenType.RBracket) l)
  | (false, l) =>
  match l.PeekByte 59 with
  | (true, l) =>
    (l.Discard 1).bind fun l =>
    let pos := l.curPos
    let l := { l with col := l.col + 1 }
    Res.ok (Pass.append (NewToken [59] pos TokenType.Semicolon) l)
  | (false, l) =>
  match l.Peek1 with
  | (_, err, l) =>
    if err = some Error.EOF then Res.ok (Pass.done (NewToken [] l.curPos TokenType.EOF) l)
    else
      let pos := l.curPos
      l.ReadUntilWhiteSpace.bind fun (identText, err, l) =>
      match err with
      | some e =>
        if e ≠ Error.EOF then Res.ok (Pass.fail (l.ErrPos e) l)
        else Res.ok (Pass.append (NewToken identText pos TokenType.Ident) l)
      | none => Res.ok (Pass.append (NewToken identText pos TokenType.Ident) l)

/-- The `for` loop of `parse`; `tokens` is the slice built so far and an error return
carries the nil slice `[]`. -/
def Lexer.parseLoop : Nat → Lexer → List Token → Res (List Token × Option Error × Lexer)
  | 0, _, _ => Res.outOfFuel
  | fuel + 1, l, tokens =>
    l.parsePass.bind fun
      | Pass.append t l => parseLoop fuel l (tokens ++ [t])
      | Pass.done t l => Res.ok (tokens ++ [t], none, l)
      | Pass.fail err l => Res.ok ([], some err, l)

/-- Method `parse(data)`: installs a fresh reader over `data` (the counters `col` and `line`
of the receiver are left as they are) and runs the loop, with fuel for
`len(data) + 1` passes. -/
def Lexer.parse (l : Lexer) (data : List Byte) : Res (List Token × Option Error × Lexer) :=
  Lexer.parseLoop (data.length + 1) { l with buf := NewReader data } []

/-! ## TokenStream -/

structure tokenStream where
  tokens : List Token
  idx : Nat
  bps : List Nat
deriving DecidableEq

def NewTokenStream (tokens : List Token) : tokenStream :=
  let tokensWithoutComments :=
    tokens.foldl (fun acc t => if t.Typ ≠ TokenType.Comment then acc ++ [t] else acc) []
  { tokens := tokensWithoutComments, idx := 0, bps := [] }

def tokenStream.BreakPoint (ts : tokenStream) : tokenStream :=
  { ts with bps := ts.bps ++ [ts.idx] }

def tokenStream.Rollback (ts : tokenStream) : tokenStream :=
  let n := ts.bps.length
  if n > 0 then { ts with idx := ts.bps.getD (n - 1) 0, bps := ts.bps.take (n - 1) } else ts

/-- Method `Peek`: the zero `Token` is `Token{}`, i.e. type `Ident` (0), empty text, position (0,0). -/
def tokenStream.Peek (ts : tokenStream) : (Token × Bool) × tokenStream :=
  if ts.idx < ts.tokens.length then
    ((ts.tokens.getD ts.idx (NewToken [] ⟨0, 0⟩ TokenType.Ident), true), ts)
  else ((NewToken [] ⟨0, 0⟩ TokenType.Ident, false), ts)

def tokenStream.Next (ts : tokenStream) : (Token × Bool) × tokenStream :=
  match ts.Peek with
  | ((t, ok), ts) => if ok then ((t, ok), { ts with idx := ts.idx + 1 }) else ((t, ok), ts)

/-- Exported `Parse(data)`: a nil `TokenStream` is `none`. -/
def Lexer.Parse (l : Lexer) (data : List Byte) :
    Res (Option tokenStream × Option Error × Lexer) :=
  (l.parse data).bind fun (tokens, err, l) =>
    if err ≠ none then Res.ok (none, err, l) else Res.ok (some (NewTokenStream tokens), none, l)

/-! ## Closed forms of the scanning loops

Each loop of the lexer walks the unread bytes once. The functions below compute the
same result by structural recursion on those bytes; the lemmas after them show that
the fuelled loops agree with them whenever the fuel exceeds the number of unread bytes
(as it does in every call made by the lexer). -/

/-- Closed form of `EatWhiteSpace` from counters `col`, `line` and unread bytes. -/
def skipWS : Nat → Nat → List Byte → Lexer
  | col, line, [] => ⟨col, line, ⟨[], none⟩⟩
  | col, line, b :: rest =>
    if b = 32 ∨ b = 9 ∨ b = 13 then skipWS (col + 1) line rest
    else if b = 10 then skipWS 0 (line + 1) rest
    else ⟨col, line, ⟨b :: rest, none⟩⟩

/-- Closed form of `ReadUntilWhiteSpace`. -/
def scanWord : Nat → Nat → Option Byte → List Byte → List Byte → List Byte × Option Error × Lexer
  | col, line, lb, buf, [] => (buf, some Error.EOF, ⟨col, line, ⟨[], lb⟩⟩)
  | col, line, _, buf, b :: rest =>
    if b = 59 then (buf, none, ⟨col, line, ⟨b :: rest, none⟩⟩)
    else if b = 32 ∨ b = 9 then (buf, none, ⟨col + 1, line, ⟨rest, some b⟩⟩)
    else if b = 13 then
      if rest.head? = some 10 then (buf, none, ⟨0, line + 1, ⟨rest, none⟩⟩)
      else scanWord (col + 1) line none (buf ++ [b]) rest
    else if b = 10 then (buf, none, ⟨0, line + 1, ⟨rest, some b⟩⟩)
    else scanWord (col + 1) line (some b) (buf ++ [b]) rest

/-- Closed form of `ReadUntil` for the delimiter string `delim :: tail`. -/
def scanUntil (delim : Byte) (tail : List Byte) (incl : Bool) :
    Nat → Nat → Option Byte → List Byte → List Byte → List Byte × Option Error × Lexer
  | col, line, lb, buf, [] => (buf, some Error.EOF, ⟨col, line, ⟨[], lb⟩⟩)
  | col, line, _, buf, b :: rest =>
    let col1 := if b = 10 then 0 else col + 1
    let line1 := if b = 10 then line + 1 else line
    if b = delim then
      if tail = [] then
        (if incl then buf ++ [b] else buf, none, ⟨col1, line1, ⟨rest, some b⟩⟩)
      else if tail <+: rest then
        (if incl then buf ++ [b] ++ tail else buf, none,
          ⟨col1 + tail.length, line1, ⟨rest.drop tail.length, none⟩⟩)
      else scanUntil delim tail incl col1 line1 none (buf ++ [b]) rest
    else scanUntil delim tail incl col1 line1 (some b) (buf ++ [b]) rest

/-- Closed form of the `switch` in the loop of `parse`, for a lexer that has just
skipped whitespace. -/
def dispatch (l : Lexer) : Pass :=
  let col := l.col
  let line := l.line
  let data := l.buf.data
  if [47, 47] <+: data then
    match scanUntil 10 [] false (col + 2) line none [] (data.drop 2) with
    | (commentText, err, l') =>
      let n := commentText.length
      let stripped :=
        if n > 0 ∧ commentText[n - 1]? = some 13 then commentText.take (n - 1) else commentText
      match err with
      | some e =>
        if e ≠ Error.EOF then Pass.fail (l'.ErrPos e) l'
        else Pass.append (NewToken stripped ⟨line, col + 2⟩ TokenType.Comment) l'
      | none => Pass.append (NewToken stripped ⟨line, col + 2⟩ TokenType.Comment) l'
  else if [47, 42] <+: data then
    match scanUntil 42 [47] false (col + 2) line none [] (data.drop 2) with
    | (commentText, err, l') =>
      match err with
      | some e => Pass.fail (l'.ErrPos e) l'
      | none => Pass.append (NewToken commentText ⟨line, col + 2⟩ TokenType.Comment) l'
  else if data.head? = some 96 then
    match scanUntil 96 [] false (col + 1) line none [] (data.drop 1) with
    | (strLit, err, l') =>
      match err with
      | some e => Pass.fail (l'.ErrPos e) l'
      | none => Pass.append (NewToken strLit ⟨line, col + 1⟩ TokenType.StringLit) l'
  else if data.head? = some 34 then
    match scanUntil 34 [] false (col + 1) line none [] (data.drop 1) with
    | (strLit, err, l') =>
      match err with
      | some e => Pass.fail (l'.ErrPos e) l'
      | none => Pass.append (NewToken strLit ⟨line, col + 1⟩ TokenType.StringLit) l'
  else if data.head? = some 123 then
    Pass.append (NewToken [123] ⟨line, col⟩ TokenType.LBracket) ⟨col + 1, line, ⟨data.drop 1, none⟩⟩
  else if data.head? = some 125 then
    Pass.append (NewToken [125] ⟨line, col⟩ TokenType.RBracket) ⟨col + 1, line, ⟨data.drop 1, none⟩⟩
  else if data.head? = some 59 then
    Pass.append (NewToken [59] ⟨line, col⟩ TokenType.Semicolon) ⟨col + 1, line, ⟨data.drop 1, none⟩⟩
  else if data = [] then
    Pass.done (NewToken [] ⟨line, col⟩ TokenType.EOF) ⟨col, line, ⟨[], none⟩⟩
  else
    match scanWord col line none [] data with
    | (identText, err, l') =>
      match err with
      | some e =>
        if e ≠ Error.EOF then Pass.fail (l'.ErrPos e) l'
        else Pass.append (NewToken identText ⟨line, col⟩ TokenType.Ident) l'
      | none => Pass.append (NewToken identText ⟨line, col⟩ TokenType.Ident) l'

/-! ## Call sequences on a TokenStream -/

/-- One call of the `TokenStream` interface. -/
inductive Call where
  | Next
  | Peek
  | BreakPoint
  | Rollback
deriving DecidableEq

/-- The state after one call (the returned token is dropped). -/
def tokenStream.call (ts : tokenStream) : Call → tokenStream
  | Call.Next => ts.Next.2
  | Call.Peek => ts.Peek.2
  | Call.BreakPoint => ts.BreakPoint
  | Call.Rollback => ts.Rollback

/-- The state after a sequence of calls, made from left to right. -/
def tokenStream.calls (ts : tokenStream) (cs : List Call) : tokenStream :=
  cs.foldl tokenStream.call ts

/-- With `d` marks currently open: every `Rollback` of `cs` closes a mark that is
open at that point, and no mark is left open at the end. -/
def closes : Nat → List Call → Bool
  | d, [] => d == 0
  | d, Call.Next :: cs => closes d cs
  | d, Call.Peek :: cs => closes d cs
  | d, Call.BreakPoint :: cs => closes (d + 1) cs
  | 0, Call.Rollback :: _ => false
  | d + 1, Call.Rollback :: cs => closes d cs

/-- A sequence of `Next`, `Peek` and properly nested `BreakPoint`/`Rollback` pairs. -/
def balanced (cs : List Call) : Bool := closes 0 cs

/-! ## Position bookkeeping -/

/-- The position rule of the spec applied to a run of consumed bytes: LF starts the
next line at column 0, every other byte is one column. -/
def advance : Nat → Nat → List Byte → Nat × Nat
  | line, col, [] => (line, col)
  | line, col, b :: rest =>
    if b = 10 then advance (line + 1) 0 rest else advance line (col + 1) rest

/-- The whitespace bytes: space, tab, CR, LF. -/
def isWS (b : Byte) : Bool := b = 32 || b = 9 || b = 13 || b = 10

/-- The trimming of a line comment: one trailing CR is dropped. -/
def stripCR (commentText : List Byte) : List Byte :=
  if commentText.length > 0 ∧ commentText[commentText.length - 1]? = some 13 then
    commentText.take (commentText.length - 1)
  else commentText

/-- The unread bytes send the `switch` of `parse` to its identifier branch: there is
a next byte and none of the earlier cases matches. -/
def wordStart (data : List Byte) : Prop :=
  data ≠ [] ∧ ¬ [47, 47] <+: data ∧ ¬ [47, 42] <+: data ∧ data.head? ≠ some 96
    ∧ data.head? ≠ some 34 ∧ data.head? ≠ some 123 ∧ data.head? ≠ some 125
    ∧ data.head? ≠ some 59

/-- An identifier word as the claims describe it: non-empty, no space, tab, CR, LF
or `;` byte, and not beginning with `{`, `}`, `"`, a backtick, `//` or `/*`. -/
def identWord (w : List Byte) : Prop :=
  w ≠ [] ∧ (∀ b ∈ w, b ≠ 32 ∧ b ≠ 9 ∧ b ≠ 13 ∧ b ≠ 10 ∧ b ≠ 59)
    ∧ w.head? ≠ some 123 ∧ w.head? ≠ some 125 ∧ w.head? ≠ some 34 ∧ w.head? ≠ some 96
    ∧ ¬ [47, 47] <+: w ∧ ¬ [47, 42] <+: w

instance (w : List Byte) : Decidable (identWord w) := by
  unfold identWord
  infer_instance

/-- Some pass meets an opener whose closer is missing from the rest of the input. -/
def unterminated (data : List Byte) : Prop :=
  ∃ pre r, (data = pre ++ 47 :: 42 :: r ∧ ¬ [42, 47] <:+: r)
    ∨ (data = pre ++ 96 :: r ∧ (96 : Byte) ∉ r)
    ∨ (data = pre ++ 34 :: r ∧ (34 : Byte) ∉ r)

/-! ## Rendering for diagnostics -/

/-- The `%d` rendering of a non-negative `int`, as bytes. -/
def decimal (n : Nat) : List Byte := (Nat.toDigits 10 n).map (fun c => c.toNat.toUInt8)

/-- Go `fmt.Sprintf("line: %d, col: %d", pos.Line, pos.Column)`. -/
def Position.String (pos : Position) : List Byte :=
  bytes "line: " ++ decimal pos.Line ++ bytes ", col: " ++ decimal pos.Column

/-- Go `fmt.Sprintf("Text: %s, near: [%s]", t.Text, t.Pos.String())`. -/
def Token.String (t : Token) : List Byte :=
  bytes "Text: " ++ t.Text ++ bytes ", near: [" ++ t.Pos.String ++ bytes "]"

/-! ## The loops agree with their closed forms -/

@[simp] theorem Res.bind_ok {α β : Type} (a : α) (f : α → Res β) : (Res.ok a).bind f = f a := rfl
@[simp] theorem Res.bind_panic {α β : Type} (f : α → Res β) : (Res.panic : Res α).bind f = Res.panic := rfl
@[simp] theorem Res.bind_outOfFuel {α β : Type} (f : α → Res β) :
    (Res.outOfFuel : Res α).bind f = Res.outOfFuel := rfl

theorem EatWhiteSpaceLoop_eq (fuel : Nat) : ∀ (col line : Nat) (data : List Byte) (lb : Option Byte),
    data.length < fuel →
    Lexer.EatWhiteSpaceLoop fuel ⟨col, line, ⟨data, lb⟩⟩ = Res.ok (skipWS col line data) := by
  induction fuel with
  | zero => intro _ _ _ _ h; omega
  | succ fuel ih =>
    intro col line data lb h
    cases data with
    | nil => simp [Lexer.EatWhiteSpaceLoop, Lexer.Peek1, Reader.Peek, defaultBufSize, skipWS]
    | cons b rest =>
      have hr : rest.length < fuel := by simpa using h
      by_cases h1 : b = 32 ∨ b = 9
      · have h1' : b = 32 ∨ b = 9 ∨ b = 13 := by tauto
        simp [Lexer.EatWhiteSpaceLoop, Lexer.Peek1, Reader.Peek, defaultBufSize, skipWS, h1, h1',
          Lexer.Discard, Reader.Discard, ih _ _ _ _ hr]
      · by_cases h2 : b = 13
        · subst h2
          simp [Lexer.EatWhiteSpaceLoop, Lexer.Peek1, Reader.Peek, defaultBufSize, skipWS,
            Lexer.Discard, Reader.Discard, ih _ _ _ _ hr]
        · have h1' : ¬ (b = 32 ∨ b = 9 ∨ b = 13) := by tauto
          by_cases h3 : b = 10
          · subst h3
            simp [Lexer.EatWhiteSpaceLoop, Lexer.Peek1, Reader.Peek, defaultBufSize, skipWS,
              Lexer.Discard, Reader.Discard, ih _ _ _ _ hr]
          · simp [Lexer.EatWhiteSpaceLoop, Lexer.Peek1, Reader.Peek, defaultBufSize, skipWS, h1, h2, h3, h1']

theorem EatWhiteSpace_eq (col line : Nat) (data : List Byte) (lb : Option Byte) :
    Lexer.EatWhiteSpace ⟨col, line, ⟨data, lb⟩⟩ = Res.ok (skipWS col line data) :=
  EatWhiteSpaceLoop_eq _ _ _ _ _ (Nat.lt_succ_self _)

theorem ReadUntilWhiteSpaceLoop_eq (fuel : Nat) :
    ∀ (col line : Nat) (data : List Byte) (lb : Option Byte) (buf : List Byte),
    data.length < fuel →
    Lexer.ReadUntilWhiteSpaceLoop fuel ⟨col, line, ⟨data, lb⟩⟩ buf
      = Res.ok (scanWord col line lb buf data) := by
  induction fuel with
  | zero => intro _ _ _ _ _ h; omega
  | succ fuel ih =>
    intro col line data lb buf h
    cases data with
    | nil => simp [Lexer.ReadUntilWhiteSpaceLoop, Reader.ReadByte, scanWord]
    | cons b rest =>
      have hr : rest.length < fuel := by simpa using h
      by_cases h0 : b = 59
      · subst h0
        simp [Lexer.ReadUntilWhiteSpaceLoop, Reader.ReadByte, Reader.UnreadByte, scanWord]
      · by_cases h1 : b = 32 ∨ b = 9
        · simp [Lexer.ReadUntilWhiteSpaceLoop, Reader.ReadByte, scanWord, h0, h1]
        · by_cases h2 : b = 13
          · subst h2
            cases rest with
            | nil =>
              simp [Lexer.ReadUntilWhiteSpaceLoop, Reader.ReadByte, scanWord, Lexer.Peek1,
                Reader.Peek, defaultBufSize, ih _ _ _ _ _ hr]
            | cons c rest2 =>
              by_cases h4 : c = 10
              · subst h4
                simp [Lexer.ReadUntilWhiteSpaceLoop, Reader.ReadByte, scanWord, Lexer.Peek1,
                  Reader.Peek, defaultBufSize]
              · simp [Lexer.ReadUntilWhiteSpaceLoop, Reader.ReadByte, scanWord, Lexer.Peek1,
                  Reader.Peek, defaultBufSize, h4, ih _ _ _ _ _ hr]
          · by_cases h3 : b = 10
            · subst h3
              simp [Lexer.ReadUntilWhiteSpaceLoop, Reader.ReadByte, scanWord]
            · simp [Lexer.ReadUntilWhiteSpaceLoop, Reader.ReadByte, scanWord, h0, h1, h2, h3,
                ih _ _ _ _ _ hr]

theorem ReadUntilWhiteSpace_eq (col line : Nat) (data : List Byte) (lb : Option Byte) :
    Lexer.ReadUntilWhiteSpace ⟨col, line, ⟨data, lb⟩⟩ = Res.ok (scanWord col line lb [] data) :=
  ReadUntilWhiteSpaceLoop_eq _ _ _ _ _ _ (Nat.lt_succ_self _)

theorem ReadUntilLoop_eq (delim : Byte) (tail : List Byte) (incl : Bool)
    (hbuf : tail.length ≤ defaultBufSize) (fuel : Nat) :
    ∀ (col line : Nat) (data : List Byte) (lb : Option Byte) (buf : List Byte),
    data.length < fuel →
    Lexer.ReadUntilLoop (delim :: tail) delim (tail.length + 1) incl fuel
        ⟨col, line, ⟨data, lb⟩⟩ buf
      = Res.ok (scanUntil delim tail incl col line lb buf data) := by
  have hbig : ¬ 4096 < tail.length := Nat.not_lt.mpr hbuf
  induction fuel with
  | zero => intro _ _ _ _ _ h; omega
  | succ fuel ih =>
    intro col line data lb buf h
    cases data with
    | nil => simp [Lexer.ReadUntilLoop, Reader.ReadByte, scanUntil]
    | cons b rest =>
      have hr : rest.length < fuel := by simpa using h
      by_cases hd : b = delim
      · subst hd
        by_cases ht : tail = []
        · subst ht
          by_cases hn : b = 10 <;> simp [Lexer.ReadUntilLoop, Reader.ReadByte, scanUntil, hn]
        · have hlen : ¬ tail.length = 0 := by simpa using ht
          by_cases hp : tail <+: rest
          · have hle : tail.length ≤ rest.length := hp.length_le
            have htk : List.take tail.length rest = tail := (List.prefix_iff_eq_take.mp hp).symm
            by_cases hn : b = 10 <;>
              simp [Lexer.ReadUntilLoop, Reader.ReadByte, scanUntil, hn, ht, hlen, hp,
                Reader.Peek, defaultBufSize, hbig, Reader.Discard, hle, htk, Nat.not_lt.mpr hle]
          · by_cases hlt : rest.length < tail.length
            · by_cases hn : b = 10
              · have := ih 0 (line + 1) rest none (buf ++ [10]) hr
                simp [hn] at this
                simp [Lexer.ReadUntilLoop, Reader.ReadByte, scanUntil, hn, ht, hlen, hp,
                  Reader.Peek, defaultBufSize, hbig, hlt, this]
              · have := ih (col + 1) line rest none (buf ++ [b]) hr
                simp [Lexer.ReadUntilLoop, Reader.ReadByte, scanUntil, hn, ht, hlen, hp,
                  Reader.Peek, defaultBufSize, hbig, hlt, this]
            · have htk : ¬ List.take tail.length rest = tail := fun h2 =>
                hp (List.prefix_iff_eq_take.mpr h2.symm)
              by_cases hn : b = 10
              · have := ih 0 (line + 1) rest none (buf ++ [10]) hr
                simp [hn] at this
                simp [Lexer.ReadUntilLoop, Reader.ReadByte, scanUntil, hn, ht, hlen, hp,
                  Reader.Peek, defaultBufSize, hbig, hlt, htk, this]
              · have := ih (col + 1) line rest none (buf ++ [b]) hr
                simp [Lexer.ReadUntilLoop, Reader.ReadByte, scanUntil, hn, ht, hlen, hp,
                  Reader.Peek, defaultBufSize, hbig, hlt, htk, this]
      · by_cases hn : b = 10
        · have hd' : ¬ (10 : Byte) = delim := hn ▸ hd
          simp [Lexer.ReadUntilLoop, Reader.ReadByte, scanUntil, hn, hd', ih _ _ _ _ _ hr]
        · simp [Lexer.ReadUntilLoop, Reader.ReadByte, scanUntil, hn, hd, ih _ _ _ _ _ hr]

theorem ReadUntil_eq (delim : Byte) (tail : List Byte) (incl : Bool)
    (col line : Nat) (data : List Byte) (lb : Option Byte)
    (hbuf : tail.length ≤ defaultBufSize) :
    Lexer.ReadUntil ⟨col, line, ⟨data, lb⟩⟩ (delim :: tail) incl
      = Res.ok (scanUntil delim tail incl col line lb [] data) :=
  ReadUntilLoop_eq _ _ _ hbuf _ _ _ _ _ _ (Nat.lt_succ_self _)

theorem PeekStr_eq (col line : Nat) (data : List Byte) (lb : Option Byte) (str : List Byte)
    (hbuf : str.length ≤ defaultBufSize) :
    Lexer.PeekStr ⟨col, line, ⟨data, lb⟩⟩ str
      = (decide (str <+: data), ⟨col, line, ⟨data, none⟩⟩) := by
  have hbig : ¬ 4096 < str.length := Nat.not_lt.mpr hbuf
  by_cases h : data.length < str.length
  · have hn : ¬ str <+: data := fun hp => absurd hp.length_le (Nat.not_le.mpr h)
    simp [Lexer.PeekStr, Reader.Peek, defaultBufSize, hbig, h, hn]
  · simp [Lexer.PeekStr, Reader.Peek, defaultBufSize, hbig, h, List.prefix_iff_eq_take, eq_comm]

theorem Peek1_eq (col line : Nat) (data : List Byte) (lb : Option Byte) :
    Lexer.Peek1 ⟨col, line, ⟨data, lb⟩⟩
      = (data.headD 0, if data = [] then some Error.EOF else none, ⟨col, line, ⟨data, none⟩⟩) := by
  cases data <;> simp [Lexer.Peek1, Reader.Peek, defaultBufSize]

theorem PeekByte_eq (col line : Nat) (data : List Byte) (lb : Option Byte) (c : Byte) :
    Lexer.PeekByte ⟨col, line, ⟨data, lb⟩⟩ c
      = (decide (data.head? = some c), ⟨col, line, ⟨data, none⟩⟩) := by
  cases data <;> simp [Lexer.PeekByte, Lexer.Peek1, Reader.Peek, defaultBufSize]

theorem Discard_eq (col line : Nat) (data : List Byte) (lb : Option Byte) (n : Nat)
    (h0 : 0 < n) (h : n ≤ data.length) :
    Lexer.Discard ⟨col, line, ⟨data, lb⟩⟩ n = Res.ok ⟨col, line, ⟨data.drop n, none⟩⟩ := by
  have h1 : ¬ n = 0 := by omega
  have h2 : ¬ data.length < n := by omega
  simp [Lexer.Discard, Reader.Discard, h1, h2]

theorem skipWS_lastByte (col line : Nat) (data : List Byte) :
    (skipWS col line data).buf.lastByte = none := by
  induction data generalizing col line with
  | nil => simp [skipWS]
  | cons b rest ih => simp only [skipWS]; split_ifs <;> simp [ih]

theorem parsePass_eq (col line : Nat) (data : List Byte) (lb : Option Byte) :
    Lexer.parsePass ⟨col, line, ⟨data, lb⟩⟩ = Res.ok (dispatch (skipWS col line data)) := by
  unfold Lexer.parsePass
  rw [EatWhiteSpace_eq, Res.bind_ok]
  generalize skipWS col line data = l1
  obtain ⟨c, ln, ⟨d, lb1⟩⟩ := l1
  by_cases h1 : [47, 47] <+: d
  · obtain ⟨t, rfl⟩ := h1
    simp [PeekStr_eq, defaultBufSize, dispatch, Discard_eq, ReadUntil_eq, Lexer.curPos]
    split <;> (try split) <;> rfl
  by_cases h2 : [47, 42] <+: d
  · obtain ⟨t, rfl⟩ := h2
    simp [PeekStr_eq, defaultBufSize, dispatch, Discard_eq, ReadUntil_eq, Lexer.curPos]
    split <;> rfl
  by_cases h3 : d.head? = some 96
  · obtain ⟨t, rfl⟩ : ∃ t, d = 96 :: t := by
      cases d with
      | nil => simp at h3
      | cons x t => exact ⟨t, by simpa using h3⟩
    simp [PeekStr_eq, defaultBufSize, PeekByte_eq, dispatch, Discard_eq, ReadUntil_eq, Lexer.curPos, h1, h2]
    split <;> rfl
  by_cases h4 : d.head? = some 34
  · obtain ⟨t, rfl⟩ : ∃ t, d = 34 :: t := by
      cases d with
      | nil => simp at h4
      | cons x t => exact ⟨t, by simpa using h4⟩
    simp [PeekStr_eq, defaultBufSize, PeekByte_eq, dispatch, Discard_eq, ReadUntil_eq, Lexer.curPos, h1, h2]
    split <;> rfl
  by_cases h5 : d.head? = some 123
  · obtain ⟨t, rfl⟩ : ∃ t, d = 123 :: t := by
      cases d with
      | nil => simp at h5
      | cons x t => exact ⟨t, by simpa using h5⟩
    simp [PeekStr_eq, defaultBufSize, PeekByte_eq, dispatch, Discard_eq, Lexer.curPos, h1, h2]
  by_cases h6 : d.head? = some 125
  · obtain ⟨t, rfl⟩ : ∃ t, d = 125 :: t := by
      cases d with
      | nil => simp at h6
      | cons x t => exact ⟨t, by simpa using h6⟩
    simp [PeekStr_eq, defaultBufSize, PeekByte_eq, dispatch, Discard_eq, Lexer.curPos, h1, h2]
  by_cases h7 : d.head? = some 59
  · obtain ⟨t, rfl⟩ : ∃ t, d = 59 :: t := by
      cases d with
      | nil => simp at h7
      | cons x t => exact ⟨t, by simpa using h7⟩
    simp [PeekStr_eq, defaultBufSize, PeekByte_eq, dispatch, Discard_eq, Lexer.curPos, h1, h2]
  by_cases h8 : d = []
  · subst h8
    simp [PeekStr_eq, defaultBufSize, PeekByte_eq, Peek1_eq, dispatch, Lexer.curPos]
  · simp [PeekStr_eq, defaultBufSize, PeekByte_eq, Peek1_eq, dispatch, Lexer.curPos, h1, h2, h3, h4, h5, h6, h7,
      h8, ReadUntilWhiteSpace_eq]
    split <;> (try split) <;> rfl

/-! ## TokenStream -/

theorem foldl_keep_eq_filter (p : Token → Prop) [DecidablePred p] (ts : List Token) :
    ∀ init : List Token,
      ts.foldl (fun acc t => if p t then acc ++ [t] else acc) init
        = init ++ ts.filter (fun t => decide (p t)) := by
  induction ts with
  | nil => intro init; simp
  | cons t rest ih =>
    intro init
    by_cases h : p t <;> simp [List.foldl_cons, ih, h]

/-- C2: the sequence held by `NewTokenStream ts` is `ts` with the `Comment` tokens
removed: it has no `Comment` token, keeps every other token once per occurrence and
in the same relative order; the cursor starts at 0 and the mark stack empty. -/
theorem NewTokenStream_filters_comments (ts : List Token) :
    (NewTokenStream ts).tokens = ts.filter (fun t => decide (t.Typ ≠ TokenType.Comment))
    ∧ (∀ t ∈ (NewTokenStream ts).tokens, t.Typ ≠ TokenType.Comment)
    ∧ (∀ t : Token, t.Typ ≠ TokenType.Comment → (NewTokenStream ts).tokens.count t = ts.count t)
    ∧ List.Sublist (NewTokenStream ts).tokens ts
    ∧ (NewTokenStream ts).idx = 0
    ∧ (NewTokenStream ts).bps = [] := by
  have h : (NewTokenStream ts).tokens
      = ts.filter (fun t => decide (t.Typ ≠ TokenType.Comment)) := by
    simp only [NewTokenStream]
    rw [foldl_keep_eq_filter (fun t => t.Typ ≠ TokenType.Comment) ts []]
    simp
  refine ⟨h, ?_, ?_, ?_, rfl, rfl⟩
  · intro t ht
    rw [h, List.mem_filter] at ht
    simpa using ht.2
  · intro t ht
    rw [h, List.count_filter]
    simpa using ht
  · rw [h]
    exact List.filter_sublist ts

theorem calls_closes (cs : List Call) :
    ∀ (d : Nat) (ts : tokenStream) (base ext : List Nat),
      closes d cs = true → ts.bps = base ++ ext → ext.length = d →
      (ts.calls cs).bps = base ∧ (ts.calls cs).tokens = ts.tokens := by
  induction cs with
  | nil =>
    intro d ts base ext hc hb hl
    have hd : d = 0 := by simpa [closes] using hc
    subst hd
    have : ext = [] := List.length_eq_zero.mp hl
    subst this
    simpa [tokenStream.calls] using hb
  | cons c cs ih =>
    intro d ts base ext hc hb hl
    cases c with
    | Next =>
      have h1 : (ts.call Call.Next).bps = ts.bps := by
        simp only [tokenStream.call, tokenStream.Next, tokenStream.Peek]
        split_ifs <;> rfl
      have h2 : (ts.call Call.Next).tokens = ts.tokens := by
        simp only [tokenStream.call, tokenStream.Next, tokenStream.Peek]
        split_ifs <;> rfl
      have := ih d (ts.call Call.Next) base ext (by simpa [closes] using hc) (h1 ▸ hb) hl
      simpa [tokenStream.calls, h2] using this
    | Peek =>
      have h1 : ts.call Call.Peek = ts := by
        simp only [tokenStream.call, tokenStream.Peek]
        split_ifs <;> rfl
      have := ih d ts base ext (by simpa [closes] using hc) hb hl
      simpa [tokenStream.calls, h1] using this
    | BreakPoint =>
      have := ih (d + 1) ts.BreakPoint base (ext ++ [ts.idx]) (by simpa [closes] using hc)
        (by simp [tokenStream.BreakPoint, hb]) (by simp [hl])
      simpa [tokenStream.calls, tokenStream.call, tokenStream.BreakPoint] using this
    | Rollback =>
      cases d with
      | zero => simp [closes] at hc
      | succ d =>
        have hne : ext ≠ [] := by
          intro h; subst h; simp at hl
        have hpos : 0 < ts.bps.length := by
          rw [hb]; simp; omega
        have h1 : ts.Rollback.bps = base ++ ext.dropLast := by
          simp only [tokenStream.Rollback, hpos, if_true]
          rw [hb, ← List.dropLast_eq_take, List.dropLast_append_of_ne_nil _ hne]
        have h2 : ts.Rollback.tokens = ts.tokens := by
          simp only [tokenStream.Rollback, hpos, if_true]
        have := ih d ts.Rollback base ext.dropLast (by simpa [closes] using hc) h1
          (by simp [hl])
        simpa [tokenStream.calls, tokenStream.call, h2] using this

theorem calls_append (ts : tokenStream) (cs1 cs2 : List Call) :
    ts.calls (cs1 ++ cs2) = (ts.calls cs1).calls cs2 := by
  simp [tokenStream.calls, List.foldl_append]

theorem rollback_after_mark (ts : tokenStream) (m : List Nat) (c : Nat)
    (h : ts.bps = m ++ [c]) :
    ts.Rollback.idx = c ∧ ts.Rollback.bps = m ∧ ts.Rollback.tokens = ts.tokens := by
  have hpos : 0 < ts.bps.length := by rw [h]; simp
  simp only [tokenStream.Rollback, hpos, if_true]
  rw [h]
  simp

theorem mark_then_balanced_then_rollback (ts : tokenStream) (cs : List Call)
    (h : balanced cs = true) :
    ((ts.BreakPoint.calls cs).Rollback).idx = ts.idx
    ∧ ((ts.BreakPoint.calls cs).Rollback).bps = ts.bps
    ∧ ((ts.BreakPoint.calls cs).Rollback).tokens = ts.tokens := by
  have hc := calls_closes cs 0 ts.BreakPoint (ts.bps ++ [ts.idx]) [] h
    (by simp [tokenStream.BreakPoint]) rfl
  have hr := rollback_after_mark (ts.BreakPoint.calls cs) ts.bps ts.idx hc.1
  refine ⟨hr.1, hr.2.1, ?_⟩
  rw [hr.2.2, hc.2]
  rfl

/-- C3: `BreakPoint`, then any sequence of `Next`, `Peek` and properly nested
`BreakPoint`/`Rollback` pairs, then `Rollback`, leaves the cursor and the mark stack
as they were before the `BreakPoint` (and the tokens untouched). With nested marks A
then B, the first `Rollback` restores the cursor recorded at B (and the marks as they
were at B), the second one the cursor recorded at A. -/
theorem BreakPoint_Rollback_LIFO (ts : tokenStream) (cs : List Call)
    (h : balanced cs = true) :
    ((ts.BreakPoint.calls cs).Rollback).idx = ts.idx
    ∧ ((ts.BreakPoint.calls cs).Rollback).bps = ts.bps
    ∧ ((ts.BreakPoint.calls cs).Rollback).tokens = ts.tokens
    ∧ ∀ (cs1 cs2 : List Call), balanced cs1 = true → balanced cs2 = true →
        cs = cs1 ++ Call.BreakPoint :: cs2 ++ [Call.Rollback] →
        (ts.BreakPoint.calls cs).idx = (ts.BreakPoint.calls cs1).idx
        ∧ (ts.BreakPoint.calls cs).bps = (ts.BreakPoint.calls cs1).bps := by
  obtain ⟨h1, h2, h3⟩ := mark_then_balanced_then_rollback ts cs h
  refine ⟨h1, h2, h3, ?_⟩
  intro cs1 cs2 _ hb2 hcs
  subst hcs
  have e : ts.BreakPoint.calls (cs1 ++ Call.BreakPoint :: cs2 ++ [Call.Rollback])
      = (((ts.BreakPoint.calls cs1).BreakPoint).calls cs2).Rollback := by
    rw [calls_append, List.append_cons, calls_append, calls_append]
    rfl
  rw [e]
  have := mark_then_balanced_then_rollback (ts.BreakPoint.calls cs1) cs2 hb2
  exact ⟨this.1, this.2.1⟩

theorem BreakPoint_Rollback_LIFO_witness :
    balanced [Call.Next, Call.BreakPoint, Call.Next, Call.Peek, Call.Rollback, Call.Next] = true
    ∧ (((NewTokenStream [NewToken [97] ⟨0, 0⟩ TokenType.Ident,
          NewToken [] ⟨0, 1⟩ TokenType.EOF]).BreakPoint.calls
        [Call.Next, Call.BreakPoint, Call.Next, Call.Peek, Call.Rollback, Call.Next]).Rollback).idx
        = 0 :=
  ⟨by decide, (BreakPoint_Rollback_LIFO _ _ (by decide)).1⟩

/-- C4: `Peek` returns `(tokens[cursor], true)` when the cursor is inside the sequence
and `(Token{}, false)` otherwise, and changes nothing; `Next` returns the pair `Peek`
returns and moves the cursor by one exactly when the flag is true; neither touches the
mark stack or the tokens. -/
theorem Peek_Next_spec (ts : tokenStream) :
    (ts.idx < ts.tokens.length →
        ts.tokens[ts.idx]? = some ts.Peek.1.1 ∧ ts.Peek.1.2 = true)
    ∧ (ts.tokens.length ≤ ts.idx →
        ts.Peek.1 = (NewToken [] ⟨0, 0⟩ TokenType.Ident, false))
    ∧ ts.Peek.2 = ts
    ∧ ts.Next.1 = ts.Peek.1
    ∧ (ts.Peek.1.2 = true → ts.Next.2.idx = ts.idx + 1)
    ∧ (ts.Peek.1.2 = false → ts.Next.2.idx = ts.idx)
    ∧ ts.Next.2.bps = ts.bps
    ∧ ts.Next.2.tokens = ts.tokens := by
  by_cases h : ts.idx < ts.tokens.length
  · have hn : ¬ ts.tokens.length ≤ ts.idx := Nat.not_le.mpr h
    simp [tokenStream.Peek, tokenStream.Next, h, hn, List.getD_eq_getElem?_getD,
      List.getElem?_eq_getElem]
  · have hn : ts.tokens.length ≤ ts.idx := Nat.le_of_not_lt h
    simp [tokenStream.Peek, tokenStream.Next, h, hn]

theorem Peek_Next_spec_witness :
    (NewTokenStream [NewToken [] ⟨0, 0⟩ TokenType.EOF]).Next.2.idx = 1 :=
  (Peek_Next_spec (NewTokenStream [NewToken [] ⟨0, 0⟩ TokenType.EOF])).2.2.2.2.1 (by decide)

/-- C5: on an empty mark stack `Rollback` changes nothing: cursor, mark stack and
tokens stay as they are (and it returns normally, there being no error result). -/
theorem Rollback_empty_noop (ts : tokenStream) (h : ts.bps = []) :
    ts.Rollback = ts
    ∧ ts.Rollback.idx = ts.idx ∧ ts.Rollback.bps = [] ∧ ts.Rollback.tokens = ts.tokens := by
  have e : ts.Rollback = ts := by simp [tokenStream.Rollback, h]
  rw [e]
  exact ⟨rfl, rfl, h, rfl⟩

theorem Rollback_empty_noop_witness :
    (NewTokenStream [NewToken [] ⟨0, 0⟩ TokenType.EOF]).Next.2.Rollback.idx = 1 :=
  (Rollback_empty_noop (NewTokenStream [NewToken [] ⟨0, 0⟩ TokenType.EOF]).Next.2
    (by decide)).2.1.trans (by decide)

/-! ## Properties of the closed forms -/

theorem advance_append (a b : List Byte) : ∀ (line col : Nat),
    advance line col (a ++ b) = advance (advance line col a).1 (advance line col a).2 b := by
  induction a with
  | nil => intro line col; simp [advance]
  | cons x a ih =>
    intro line col
    by_cases h : x = 10 <;> simp [advance, h, ih]

theorem isWS_iff (b : Byte) : isWS b = true ↔ b = 32 ∨ b = 9 ∨ b = 13 ∨ b = 10 := by
  simp [isWS, or_assoc]

theorem isWS_false_iff (b : Byte) : isWS b = false ↔ b ≠ 32 ∧ b ≠ 9 ∧ b ≠ 13 ∧ b ≠ 10 := by
  simp [isWS, and_assoc]

theorem skipWS_cons_lf (col line : Nat) (rest : List Byte) :
    skipWS col line (10 :: rest) = skipWS 0 (line + 1) rest := by
  simp [skipWS]

theorem skipWS_cons_blank (col line : Nat) (b : Byte) (rest : List Byte)
    (h : b = 32 ∨ b = 9 ∨ b = 13) :
    skipWS col line (b :: rest) = skipWS (col + 1) line rest := by
  simp [skipWS, h]

theorem skipWS_cons_other (col line : Nat) (b : Byte) (rest : List Byte)
    (h : isWS b = false) :
    skipWS col line (b :: rest) = ⟨col, line, ⟨b :: rest, none⟩⟩ := by
  obtain ⟨h1, h2, h3, h4⟩ := (isWS_false_iff b).mp h
  simp [skipWS, h1, h2, h3, h4]

theorem skipWS_spec (data : List Byte) : ∀ (col line : Nat),
    ∃ c, data = c ++ (skipWS col line data).buf.data
      ∧ ((skipWS col line data).line, (skipWS col line data).col) = advance line col c
      ∧ (∀ b ∈ c, isWS b = true)
      ∧ (skipWS col line data).buf.lastByte = none
      ∧ (∀ b ∈ (skipWS col line data).buf.data.head?, isWS b = false) := by
  induction data with
  | nil => intro col line; exact ⟨[], by simp [skipWS, advance]⟩
  | cons b rest ih =>
    intro col line
    by_cases h1 : b = 32 ∨ b = 9 ∨ b = 13
    · obtain ⟨c, hc1, hc2, hc3, hc4, hc5⟩ := ih (col + 1) line
      have hb : ¬ b = 10 := by rcases h1 with h | h | h <;> (subst h; decide)
      have hw : isWS b = true := by rcases h1 with h | h | h <;> (subst h; decide)
      rw [skipWS_cons_blank _ _ _ _ h1]
      refine ⟨b :: c, ?_, ?_, ?_, hc4, hc5⟩
      · rw [List.cons_append, ← hc1]
      · simp only [advance, hb, if_false]; exact hc2
      · intro x hx
        rcases List.mem_cons.mp hx with h | h
        · rw [h]; exact hw
        · exact hc3 x h
    · by_cases h2 : b = 10
      · obtain ⟨c, hc1, hc2, hc3, hc4, hc5⟩ := ih 0 (line + 1)
        subst h2
        rw [skipWS_cons_lf]
        refine ⟨10 :: c, ?_, ?_, ?_, hc4, hc5⟩
        · rw [List.cons_append, ← hc1]
        · simp only [advance, if_true]; exact hc2
        · intro x hx
          rcases List.mem_cons.mp hx with h | h
          · rw [h]; decide
          · exact hc3 x h
      · have hw : isWS b = false := by
          rw [isWS_false_iff]
          simp only [not_or] at h1
          exact ⟨h1.1, h1.2.1, h1.2.2, h2⟩
        rw [skipWS_cons_other _ _ _ _ hw]
        exact ⟨[], by simp [advance, hw]⟩

theorem skipWS_of_not_ws (col line : Nat) (data : List Byte)
    (h : ∀ b ∈ data.head?, isWS b = false) :
    skipWS col line data = ⟨col, line, ⟨data, none⟩⟩ := by
  cases data with
  | nil => simp [skipWS]
  | cons b rest => exact skipWS_cons_other _ _ _ _ (h b (by simp))

theorem skipWS_append (ws : List Byte) (hws : ∀ b ∈ ws, isWS b = true) (rest : List Byte) :
    ∀ (col line : Nat),
      skipWS col line (ws ++ rest)
        = skipWS (advance line col ws).2 (advance line col ws).1 rest := by
  induction ws with
  | nil => intro col line; simp [advance]
  | cons b ws ih =>
    intro col line
    have hb := (isWS_iff b).mp (hws b (by simp))
    have ih' := ih (fun x hx => hws x (List.mem_cons_of_mem _ hx))
    by_cases h2 : b = 10
    · subst h2
      rw [List.cons_append, skipWS_cons_lf, ih']
      simp [advance]
    · have h1 : b = 32 ∨ b = 9 ∨ b = 13 := by tauto
      rw [List.cons_append, skipWS_cons_blank _ _ _ _ h1, ih']
      simp [advance, h2]

theorem advance_no_lf (t : List Byte) (h : (10 : Byte) ∉ t) :
    ∀ (line col : Nat), advance line col t = (line, col + t.length) := by
  induction t with
  | nil => intro line col; simp [advance]
  | cons x t ih =>
    intro line col
    have hx : ¬ x = 10 := fun e => h (by simp [e])
    have ht : (10 : Byte) ∉ t := fun e => h (List.mem_cons_of_mem _ e)
    simp only [advance, hx, if_false, ih ht, List.length_cons]
    congr 1
    omega

theorem scanUntil_spec (delim : Byte) (tail : List Byte) (incl : Bool) (htail : (10 : Byte) ∉ tail)
    (data : List Byte) : ∀ (col line : Nat) (lb : Option Byte) (buf : List Byte),
    ∃ c, data = c ++ (scanUntil delim tail incl col line lb buf data).2.2.buf.data
      ∧ ((scanUntil delim tail incl col line lb buf data).2.2.line,
          (scanUntil delim tail incl col line lb buf data).2.2.col) = advance line col c
      ∧ ((scanUntil delim tail incl col line lb buf data).2.1 = none
          ∨ (scanUntil delim tail incl col line lb buf data).2.1 = some Error.EOF)
      ∧ ((scanUntil delim tail incl col line lb buf data).2.1 = none → c ≠ []) := by
  induction data with
  | nil => intro col line lb buf; exact ⟨[], by simp [scanUntil, advance]⟩
  | cons b rest ih =>
    intro col line lb buf
    have hstep : ∀ (lb' : Option Byte),
        scanUntil delim tail incl col line lb buf (b :: rest)
          = scanUntil delim tail incl (if b = 10 then 0 else col + 1)
              (if b = 10 then line + 1 else line) lb' (buf ++ [b]) rest →
        ∃ c, b :: rest = c ++ (scanUntil delim tail incl col line lb buf (b :: rest)).2.2.buf.data
          ∧ ((scanUntil delim tail incl col line lb buf (b :: rest)).2.2.line,
              (scanUntil delim tail incl col line lb buf (b :: rest)).2.2.col) = advance line col c
          ∧ ((scanUntil delim tail incl col line lb buf (b :: rest)).2.1 = none
              ∨ (scanUntil delim tail incl col line lb buf (b :: rest)).2.1 = some Error.EOF)
          ∧ ((scanUntil delim tail incl col line lb buf (b :: rest)).2.1 = none → c ≠ []) := by
      intro lb' e
      rw [e]
      obtain ⟨c, hc1, hc2, hc3, _⟩ := ih (if b = 10 then 0 else col + 1)
        (if b = 10 then line + 1 else line) lb' (buf ++ [b])
      refine ⟨b :: c, ?_, ?_, hc3, fun _ => List.cons_ne_nil _ _⟩
      · rw [List.cons_append, ← hc1]
      · rw [hc2]
        by_cases hn : b = 10 <;> simp [advance, hn]
    by_cases hd : b = delim
    · by_cases ht : tail = []
      · refine ⟨[b], ?_, ?_, ?_, fun _ => List.cons_ne_nil _ _⟩
        · simp [scanUntil, hd, ht]
        · by_cases hn : delim = 10 <;> simp [scanUntil, hd, ht, advance, hn]
        · simp [scanUntil, hd, ht]
      · by_cases hp : tail <+: rest
        · obtain ⟨r2, hr2⟩ := hp
          refine ⟨b :: tail, ?_, ?_, ?_, fun _ => List.cons_ne_nil _ _⟩
          · subst hr2
            simp [scanUntil, hd, ht]
          · have hadv := advance_no_lf tail htail
            subst hr2
            by_cases hn : delim = 10 <;> simp [scanUntil, hd, ht, advance, hn, hadv]
          · subst hr2
            simp [scanUntil, hd, ht]
        · apply hstep none
          simp [scanUntil, hd, ht, hp]
    · apply hstep (some b)
      simp [scanUntil, hd]


theorem scanUntil_fails_without_delim (delim : Byte) (tail : List Byte) (incl : Bool)
    (data : List Byte) (h : ¬ (delim :: tail) <:+: data) :
    ∀ (col line : Nat) (lb : Option Byte) (buf : List Byte),
      (scanUntil delim tail incl col line lb buf data).2.1 = some Error.EOF := by
  induction data with
  | nil => intro col line lb buf; simp [scanUntil]
  | cons b rest ih =>
    intro col line lb buf
    have hrest : ¬ (delim :: tail) <:+: rest := fun hi =>
      h (hi.trans (List.suffix_cons b rest).isInfix)
    by_cases hd : b = delim
    · have hp : ¬ tail <+: rest := by
        intro hp
        apply h
        rw [hd]
        exact ((List.prefix_cons_inj delim).mpr hp).isInfix
      have ht : ¬ tail = [] := by
        intro e
        apply hp
        rw [e]
        exact List.nil_prefix
      simp [scanUntil, hd, ht, hp, ih hrest]
    · simp [scanUntil, hd, ih hrest]

theorem scanUntil_ok_has_delim (delim : Byte) (tail : List Byte) (incl : Bool)
    (data : List Byte) :
    ∀ (col line : Nat) (lb : Option Byte) (buf : List Byte),
      (scanUntil delim tail incl col line lb buf data).2.1 = none →
      (delim :: tail) <:+: data := by
  intro col line lb buf h
  by_contra hn
  rw [scanUntil_fails_without_delim delim tail incl data hn] at h
  exact absurd h (by simp)

theorem scanWord_spec (data : List Byte) : ∀ (col line : Nat) (lb : Option Byte) (buf : List Byte),
    ∃ c, data = c ++ (scanWord col line lb buf data).2.2.buf.data
      ∧ ((13 : Byte) ∉ c →
          ((scanWord col line lb buf data).2.2.line, (scanWord col line lb buf data).2.2.col)
            = advance line col c)
      ∧ ((scanWord col line lb buf data).2.1 = none
          ∨ (scanWord col line lb buf data).2.1 = some Error.EOF)
      ∧ ((∀ b ∈ data.head?, b ≠ 59) → data ≠ [] → c ≠ []) := by
  induction data with
  | nil => intro col line lb buf; exact ⟨[], by simp [scanWord, advance]⟩
  | cons b rest ih =>
    intro col line lb buf
    have hstep : ∀ (lb' : Option Byte), ¬ b = 10 →
        scanWord col line lb buf (b :: rest) = scanWord (col + 1) line lb' (buf ++ [b]) rest →
        ∃ c, b :: rest = c ++ (scanWord col line lb buf (b :: rest)).2.2.buf.data
          ∧ ((13 : Byte) ∉ c →
              ((scanWord col line lb buf (b :: rest)).2.2.line,
                (scanWord col line lb buf (b :: rest)).2.2.col) = advance line col c)
          ∧ ((scanWord col line lb buf (b :: rest)).2.1 = none
              ∨ (scanWord col line lb buf (b :: rest)).2.1 = some Error.EOF)
          ∧ ((∀ x ∈ (b :: rest).head?, x ≠ 59) → b :: rest ≠ [] → c ≠ []) := by
      intro lb' hn e
      rw [e]
      obtain ⟨c, hc1, hc2, hc3, _⟩ := ih (col + 1) line lb' (buf ++ [b])
      refine ⟨b :: c, ?_, ?_, hc3, fun _ _ => List.cons_ne_nil _ _⟩
      · rw [List.cons_append, ← hc1]
      · intro h13
        rw [hc2 (fun h => h13 (List.mem_cons_of_mem _ h))]
        simp [advance, hn]
    by_cases h0 : b = 59
    · refine ⟨[], ?_, ?_, ?_, ?_⟩
      · simp [scanWord, h0]
      · simp [scanWord, h0, advance]
      · simp [scanWord, h0]
      · intro hh; exact absurd h0 (hh b (by simp))
    by_cases h1 : b = 32 ∨ b = 9
    · have hn : ¬ b = 10 := by rcases h1 with h | h <;> (subst h; decide)
      refine ⟨[b], ?_, ?_, ?_, fun _ _ => List.cons_ne_nil _ _⟩
      · simp [scanWord, h0, h1]
      · simp [scanWord, h0, h1, advance, hn]
      · simp [scanWord, h0, h1]
    by_cases h2 : b = 13
    · by_cases h4 : rest.head? = some 10
      · refine ⟨[b], ?_, ?_, ?_, fun _ _ => List.cons_ne_nil _ _⟩
        · simp [scanWord, h2, h4]
        · intro h13; exact absurd (by simp [h2]) h13
        · simp [scanWord, h2, h4]
      · apply hstep none (by rw [h2]; decide)
        simp [scanWord, h2, h4]
    by_cases h3 : b = 10
    · refine ⟨[b], ?_, ?_, ?_, fun _ _ => List.cons_ne_nil _ _⟩
      · simp [scanWord, h3]
      · simp [scanWord, h3, advance]
      · simp [scanWord, h3]
    · apply hstep (some b) h3
      simp [scanWord, h0, h1, h2, h3]


/-! ## The branches of the `switch` -/

theorem consumed_after_opener (opener : List Byte) (hop : opener ≠ [])
    (h10 : (10 : Byte) ∉ opener) (delim : Byte) (tail : List Byte) (htail : (10 : Byte) ∉ tail)
    (col line : Nat) (rest : List Byte) :
    ∃ c, c ≠ []
      ∧ opener ++ rest
          = c ++ (scanUntil delim tail false (col + opener.length) line none [] rest).2.2.buf.data
      ∧ ((scanUntil delim tail false (col + opener.length) line none [] rest).2.2.line,
          (scanUntil delim tail false (col + opener.length) line none [] rest).2.2.col)
          = advance line col c := by
  obtain ⟨c, hc1, hc2, _, _⟩ :=
    scanUntil_spec delim tail false htail rest (col + opener.length) line none []
  refine ⟨opener ++ c, ?_, ?_, ?_⟩
  · simp [hop]
  · rw [List.append_assoc, ← hc1]
  · rw [hc2, advance_append, advance_no_lf opener h10]

theorem dispatch_line_comment (col line : Nat) (lb : Option Byte) (rest : List Byte) :
    dispatch ⟨col, line, ⟨47 :: 47 :: rest, lb⟩⟩
      = Pass.append
          (NewToken (stripCR (scanUntil 10 [] false (col + 2) line none [] rest).1)
            ⟨line, col + 2⟩ TokenType.Comment)
          (scanUntil 10 [] false (col + 2) line none [] rest).2.2 := by
  have herr := (scanUntil_spec 10 [] false (by simp) rest (col + 2) line none []).choose_spec.2.2.1
  have hp : [47, 47] <+: (47 :: 47 :: rest : List Byte) := ⟨rest, rfl⟩
  unfold dispatch
  simp only [hp, if_true, List.drop_succ_cons, List.drop_zero]
  rcases herr with h | h <;> rw [h] <;> simp [stripCR]

theorem dispatch_block_comment (col line : Nat) (lb : Option Byte) (rest : List Byte) :
    dispatch ⟨col, line, ⟨47 :: 42 :: rest, lb⟩⟩
      = match (scanUntil 42 [47] false (col + 2) line none [] rest).2.1 with
        | some e =>
          Pass.fail ((scanUntil 42 [47] false (col + 2) line none [] rest).2.2.ErrPos e)
            (scanUntil 42 [47] false (col + 2) line none [] rest).2.2
        | none =>
          Pass.append
            (NewToken (scanUntil 42 [47] false (col + 2) line none [] rest).1
              ⟨line, col + 2⟩ TokenType.Comment)
            (scanUntil 42 [47] false (col + 2) line none [] rest).2.2 := by
  have hp : [47, 42] <+: (47 :: 42 :: rest : List Byte) := ⟨rest, rfl⟩
  have hq : ¬ [47, 47] <+: (47 :: 42 :: rest : List Byte) := by
    rintro ⟨t, ht⟩
    simp at ht
  unfold dispatch
  simp only [hp, hq, if_true, if_false, List.drop_succ_cons, List.drop_zero]

theorem not_prefix_of_head_ne (a b x : Byte) (rest : List Byte) (h : x ≠ a) :
    ¬ [a, b] <+: (x :: rest) := by
  rintro ⟨t, ht⟩
  simp at ht
  exact h ht.1.symm

theorem dispatch_string (q : Byte) (hq : q = 96 ∨ q = 34)
    (col line : Nat) (lb : Option Byte) (rest : List Byte) :
    dispatch ⟨col, line, ⟨q :: rest, lb⟩⟩
      = match (scanUntil q [] false (col + 1) line none [] rest).2.1 with
        | some e =>
          Pass.fail ((scanUntil q [] false (col + 1) line none [] rest).2.2.ErrPos e)
            (scanUntil q [] false (col + 1) line none [] rest).2.2
        | none =>
          Pass.append
            (NewToken (scanUntil q [] false (col + 1) line none [] rest).1
              ⟨line, col + 1⟩ TokenType.StringLit)
            (scanUntil q [] false (col + 1) line none [] rest).2.2 := by
  have h1 : ¬ [47, 47] <+: (q :: rest) :=
    not_prefix_of_head_ne _ _ _ _ (by rcases hq with h | h <;> (subst h; decide))
  have h2 : ¬ [47, 42] <+: (q :: rest) :=
    not_prefix_of_head_ne _ _ _ _ (by rcases hq with h | h <;> (subst h; decide))
  unfold dispatch
  rcases hq with h | h <;> subst h <;>
    simp only [h1, h2, if_false, List.head?_cons, List.drop_succ_cons, List.drop_zero] <;>
    simp

theorem dispatch_punct (p : Byte) (hp : p = 123 ∨ p = 125 ∨ p = 59)
    (col line : Nat) (lb : Option Byte) (rest : List Byte) :
    dispatch ⟨col, line, ⟨p :: rest, lb⟩⟩
      = Pass.append
          (NewToken [p] ⟨line, col⟩
            (if p = 123 then TokenType.LBracket
             else if p = 125 then TokenType.RBracket else TokenType.Semicolon))
          ⟨col + 1, line, ⟨rest, none⟩⟩ := by
  have h1 : ¬ [47, 47] <+: (p :: rest) :=
    not_prefix_of_head_ne _ _ _ _ (by rcases hp with h | h | h <;> (subst h; decide))
  have h2 : ¬ [47, 42] <+: (p :: rest) :=
    not_prefix_of_head_ne _ _ _ _ (by rcases hp with h | h | h <;> (subst h; decide))
  unfold dispatch
  rcases hp with h | h | h <;> subst h <;>
    simp only [h1, h2, if_false, List.head?_cons, List.drop_succ_cons, List.drop_zero] <;>
    simp

theorem dispatch_nil (col line : Nat) (lb : Option Byte) :
    dispatch ⟨col, line, ⟨[], lb⟩⟩
      = Pass.done (NewToken [] ⟨line, col⟩ TokenType.EOF) ⟨col, line, ⟨[], none⟩⟩ := by
  unfold dispatch
  simp

theorem dispatch_word (col line : Nat) (lb : Option Byte) (data : List Byte)
    (h : wordStart data) :
    dispatch ⟨col, line, ⟨data, lb⟩⟩
      = Pass.append (NewToken (scanWord col line none [] data).1 ⟨line, col⟩ TokenType.Ident)
          (scanWord col line none [] data).2.2 := by
  obtain ⟨h0, h1, h2, h3, h4, h5, h6, h7⟩ := h
  have herr := (scanWord_spec data col line none []).choose_spec.2.2.1
  unfold dispatch
  simp only [h0, h1, h2, h3, h4, h5, h6, h7, if_false]
  rcases herr with h | h <;> simp [h]

/-- The `switch` has a branch for every shape of the unread bytes. -/
theorem switch_cases (data : List Byte) :
    (∃ rest, data = 47 :: 47 :: rest) ∨ (∃ rest, data = 47 :: 42 :: rest)
    ∨ (∃ q rest, (q = 96 ∨ q = 34) ∧ data = q :: rest)
    ∨ (∃ p rest, (p = 123 ∨ p = 125 ∨ p = 59) ∧ data = p :: rest)
    ∨ data = [] ∨ wordStart data := by
  by_cases h1 : [47, 47] <+: data
  · obtain ⟨t, rfl⟩ := h1; exact Or.inl ⟨t, rfl⟩
  by_cases h2 : [47, 42] <+: data
  · obtain ⟨t, rfl⟩ := h2; exact Or.inr (Or.inl ⟨t, rfl⟩)
  cases data with
  | nil => simp
  | cons b rest =>
    by_cases h3 : b = 96 ∨ b = 34
    · exact Or.inr (Or.inr (Or.inl ⟨b, rest, h3, rfl⟩))
    by_cases h4 : b = 123 ∨ b = 125 ∨ b = 59
    · exact Or.inr (Or.inr (Or.inr (Or.inl ⟨b, rest, h4, rfl⟩)))
    simp only [not_or] at h3 h4
    refine Or.inr (Or.inr (Or.inr (Or.inr (Or.inr ?_))))
    simp [wordStart, h1, h2, h3, h4]


theorem scanUntil_finds_delim (delim : Byte) (tail : List Byte) (incl : Bool)
    (data : List Byte) (h : (delim :: tail) <:+: data) :
    ∀ (col line : Nat) (lb : Option Byte) (buf : List Byte),
      (scanUntil delim tail incl col line lb buf data).2.1 = none := by
  induction data with
  | nil => exact absurd (List.eq_nil_of_infix_nil h) (by simp)
  | cons b rest ih =>
    intro col line lb buf
    by_cases hd : b = delim
    · by_cases ht : tail = []
      · simp [scanUntil, hd, ht]
      · by_cases hp : tail <+: rest
        · simp [scanUntil, hd, ht, hp]
        · have hrest : (delim :: tail) <:+: rest := by
            rcases List.infix_cons_iff.mp h with h1 | h1
            · rw [hd] at h1
              exact absurd ((List.prefix_cons_inj delim).mp h1) hp
            · exact h1
          simp [scanUntil, hd, ht, hp, ih hrest]
    · have hrest : (delim :: tail) <:+: rest := by
        rcases List.infix_cons_iff.mp h with h1 | h1
        · obtain ⟨t, ht⟩ := h1
          simp at ht
          exact absurd ht.1.symm hd
        · exact h1
      simp [scanUntil, hd, ih hrest]

theorem singleton_infix_of_mem {x : Byte} {l : List Byte} (h : x ∈ l) : [x] <:+: l := by
  obtain ⟨s, t, e⟩ := List.append_of_mem h
  exact ⟨s, t, by simp [e]⟩

theorem dispatch_append (l l' : Lexer) (t : Token) (h : dispatch l = Pass.append t l') :
    t.Typ ≠ TokenType.EOF
    ∧ ∃ c, c ≠ [] ∧ l.buf.data = c ++ l'.buf.data
        ∧ ((13 : Byte) ∉ c → (l'.line, l'.col) = advance l.line l.col c) := by
  obtain ⟨col, line, ⟨data, lb⟩⟩ := l
  rcases switch_cases data with ⟨rest, rfl⟩ | ⟨rest, rfl⟩ | ⟨q, rest, hq, rfl⟩
    | ⟨p, rest, hp, rfl⟩ | rfl | hw
  · rw [dispatch_line_comment] at h
    injection h with h1 h2
    subst h1 h2
    obtain ⟨c, hc0, hc1, hc2⟩ := consumed_after_opener [47, 47] (by simp) (by decide) 10 []
      (by simp) col line rest
    exact ⟨by simp [NewToken], c, hc0, hc1, fun _ => hc2⟩
  · rw [dispatch_block_comment] at h
    obtain ⟨c, hc0, hc1, hc2⟩ := consumed_after_opener [47, 42] (by simp) (by decide) 42 [47]
      (by decide) col line rest
    split at h
    · exact absurd h (by simp)
    · injection h with h1 h2
      subst h1 h2
      exact ⟨by simp [NewToken], c, hc0, hc1, fun _ => hc2⟩
  · rw [dispatch_string q hq] at h
    have hq10 : (10 : Byte) ∉ [q] := by rcases hq with e | e <;> (subst e; decide)
    obtain ⟨c, hc0, hc1, hc2⟩ := consumed_after_opener [q] (by simp) hq10 q []
      (by simp) col line rest
    split at h
    · exact absurd h (by simp)
    · injection h with h1 h2
      subst h1 h2
      exact ⟨by simp [NewToken], c, hc0, hc1, fun _ => hc2⟩
  · rw [dispatch_punct p hp] at h
    injection h with h1 h2
    subst h1 h2
    have hp10 : ¬ p = 10 := by rcases hp with e | e | e <;> (subst e; decide)
    refine ⟨?_, [p], by simp, by simp, fun _ => by simp [advance, hp10]⟩
    simp only [NewToken]
    split_ifs <;> simp
  · rw [dispatch_nil] at h
    exact absurd h (by simp)
  · rw [dispatch_word _ _ _ _ hw] at h
    injection h with h1 h2
    subst h1 h2
    obtain ⟨c, hc1, hc2, _, hc4⟩ := scanWord_spec data col line none []
    refine ⟨by simp [NewToken], c, hc4 ?_ hw.1, hc1, hc2⟩
    intro b hb
    intro e
    exact hw.2.2.2.2.2.2.2 (by rw [← e]; simpa using hb)

theorem dispatch_done (l l' : Lexer) (t : Token) (h : dispatch l = Pass.done t l') :
    l.buf.data = [] ∧ t = NewToken [] ⟨l.line, l.col⟩ TokenType.EOF
      ∧ l' = ⟨l.col, l.line, ⟨[], none⟩⟩ := by
  obtain ⟨col, line, ⟨data, lb⟩⟩ := l
  rcases switch_cases data with ⟨rest, rfl⟩ | ⟨rest, rfl⟩ | ⟨q, rest, hq, rfl⟩
    | ⟨p, rest, hp, rfl⟩ | rfl | hw
  · rw [dispatch_line_comment] at h; exact absurd h (by simp)
  · rw [dispatch_block_comment] at h; split at h <;> exact absurd h (by simp)
  · rw [dispatch_string q hq] at h; split at h <;> exact absurd h (by simp)
  · rw [dispatch_punct p hp] at h; exact absurd h (by simp)
  · rw [dispatch_nil] at h
    injection h with h1 h2
    exact ⟨rfl, h1.symm, h2.symm⟩
  · rw [dispatch_word _ _ _ _ hw] at h; exact absurd h (by simp)

theorem dispatch_fail (l l' : Lexer) (e : Error) (h : dispatch l = Pass.fail e l') :
    (∃ rest, l.buf.data = 47 :: 42 :: rest ∧ ¬ [42, 47] <:+: rest)
    ∨ (∃ rest, l.buf.data = 96 :: rest ∧ (96 : Byte) ∉ rest)
    ∨ (∃ rest, l.buf.data = 34 :: rest ∧ (34 : Byte) ∉ rest) := by
  obtain ⟨col, line, ⟨data, lb⟩⟩ := l
  have key : ∀ (d : Byte) (tl : List Byte) (c : Nat) (rest : List Byte) (e0 : Error),
      (scanUntil d tl false c line none [] rest).2.1 = some e0 → ¬ (d :: tl) <:+: rest := by
    intro d tl c rest e0 h1 hin
    rw [scanUntil_finds_delim d tl false rest hin] at h1
    exact absurd h1 (by simp)
  rcases switch_cases data with ⟨rest, rfl⟩ | ⟨rest, rfl⟩ | ⟨q, rest, hq, rfl⟩
    | ⟨p, rest, hp, rfl⟩ | rfl | hw
  · rw [dispatch_line_comment] at h; exact absurd h (by simp)
  · rw [dispatch_block_comment] at h
    split at h
    · rename_i e0 he0
      exact Or.inl ⟨rest, rfl, key _ _ _ _ _ he0⟩
    · exact absurd h (by simp)
  · rw [dispatch_string q hq] at h
    split at h
    · rename_i e0 he0
      have := key _ _ _ _ _ he0
      rcases hq with hq | hq
      · subst hq
        exact Or.inr (Or.inl ⟨rest, rfl, fun hm => this (singleton_infix_of_mem hm)⟩)
      · subst hq
        exact Or.inr (Or.inr ⟨rest, rfl, fun hm => this (singleton_infix_of_mem hm)⟩)
    · exact absurd h (by simp)
  · rw [dispatch_punct p hp] at h; exact absurd h (by simp)
  · rw [dispatch_nil] at h; exact absurd h (by simp)
  · rw [dispatch_word _ _ _ _ hw] at h; exact absurd h (by simp)


/-! ## The loop of `parse` -/

theorem parseLoop_succ (fuel col line : Nat) (data : List Byte) (lb : Option Byte)
    (tokens : List Token) :
    Lexer.parseLoop (fuel + 1) ⟨col, line, ⟨data, lb⟩⟩ tokens
      = match dispatch (skipWS col line data) with
        | Pass.append t l => Lexer.parseLoop fuel l (tokens ++ [t])
        | Pass.done t l => Res.ok (tokens ++ [t], none, l)
        | Pass.fail err l => Res.ok ([], some err, l) := by
  rw [Lexer.parseLoop, parsePass_eq, Res.bind_ok]

/-- One pass that goes on: the token is not `EOF`, a non-empty prefix `c` of the unread
bytes was consumed, and the position moved by `advance` if no CR was consumed. -/
theorem pass_append (col line : Nat) (data : List Byte) (t : Token) (l' : Lexer)
    (h : dispatch (skipWS col line data) = Pass.append t l') :
    t.Typ ≠ TokenType.EOF
    ∧ ∃ c, c ≠ [] ∧ data = c ++ l'.buf.data
        ∧ ((13 : Byte) ∉ c → (l'.line, l'.col) = advance line col c) := by
  obtain ⟨ht, c, hc0, hc1, hc2⟩ := dispatch_append _ _ _ h
  obtain ⟨w, hw1, hw2, _, _, _⟩ := skipWS_spec data col line
  refine ⟨ht, w ++ c, by simp [hc0], ?_, ?_⟩
  · rw [List.append_assoc, ← hc1]; exact hw1
  · intro h13
    rw [hc2 (fun hm => h13 (List.mem_append_right _ hm)), advance_append, ← hw2]

theorem pass_done (col line : Nat) (data : List Byte) (t : Token) (l' : Lexer)
    (h : dispatch (skipWS col line data) = Pass.done t l') :
    t = NewToken [] ⟨l'.line, l'.col⟩ TokenType.EOF ∧ l'.buf = ⟨[], none⟩
      ∧ (l'.line, l'.col) = advance line col data := by
  obtain ⟨h1, h2, h3⟩ := dispatch_done _ _ _ h
  obtain ⟨w, hw1, hw2, _, _, _⟩ := skipWS_spec data col line
  rw [h1, List.append_nil] at hw1
  rw [← hw1] at hw2
  subst h3
  exact ⟨h2, rfl, hw2⟩

theorem pass_fail (col line : Nat) (data : List Byte) (e : Error) (l' : Lexer)
    (h : dispatch (skipWS col line data) = Pass.fail e l') :
    ∃ ws rest, data = ws ++ rest ∧ (∀ b ∈ ws, isWS b = true)
      ∧ ((∃ r, rest = 47 :: 42 :: r ∧ ¬ [42, 47] <:+: r)
        ∨ (∃ r, rest = 96 :: r ∧ (96 : Byte) ∉ r)
        ∨ (∃ r, rest = 34 :: r ∧ (34 : Byte) ∉ r)) := by
  obtain ⟨w, hw1, _, hw3, _, _⟩ := skipWS_spec data col line
  exact ⟨w, _, hw1, hw3, dispatch_fail _ _ _ h⟩

/-- With fuel for more passes than there are unread bytes the loop returns: it neither
panics nor runs out of fuel. -/
theorem parseLoop_returns (fuel : Nat) : ∀ (l : Lexer) (tokens : List Token),
    l.buf.data.length < fuel → ∃ r, Lexer.parseLoop fuel l tokens = Res.ok r := by
  induction fuel with
  | zero => intro l tokens h; omega
  | succ fuel ih =>
    intro l tokens h
    obtain ⟨col, line, ⟨data, lb⟩⟩ := l
    rw [parseLoop_succ]
    cases hd : dispatch (skipWS col line data) with
    | append t l' =>
      obtain ⟨_, c, hc0, hc1, _⟩ := pass_append _ _ _ _ _ hd
      have hlen : l'.buf.data.length < fuel := by
        have : 0 < c.length := List.length_pos.mpr hc0
        have e : data.length = c.length + l'.buf.data.length := by
          rw [hc1, List.length_append]
        simp at h
        omega
      exact ih l' _ hlen
    | done t l' => exact ⟨_, rfl⟩
    | fail e l' => exact ⟨_, rfl⟩

/-- Shape of a successful result: the tokens so far, then tokens that are not `EOF`,
then one `EOF` token with empty text at the final position; all bytes are consumed. -/
theorem parseLoop_success (fuel : Nat) : ∀ (l : Lexer) (tokens ts : List Token) (l' : Lexer),
    Lexer.parseLoop fuel l tokens = Res.ok (ts, none, l') →
    ∃ pre, ts = tokens ++ pre ++ [NewToken [] ⟨l'.line, l'.col⟩ TokenType.EOF]
      ∧ (∀ x ∈ pre, x.Typ ≠ TokenType.EOF)
      ∧ ((13 : Byte) ∉ l.buf.data → (l'.line, l'.col) = advance l.line l.col l.buf.data) := by
  induction fuel with
  | zero => intro l tokens ts l' h; simp [Lexer.parseLoop] at h
  | succ fuel ih =>
    intro l tokens ts l' h
    obtain ⟨col, line, ⟨data, lb⟩⟩ := l
    rw [parseLoop_succ] at h
    cases hd : dispatch (skipWS col line data) with
    | append t l1 =>
      rw [hd] at h
      obtain ⟨ht, c, _, hc1, hc2⟩ := pass_append _ _ _ _ _ hd
      obtain ⟨pre, hp1, hp2, hp3⟩ := ih l1 _ ts l' h
      refine ⟨t :: pre, ?_, ?_, ?_⟩
      · rw [hp1]; simp
      · intro x hx
        rcases List.mem_cons.mp hx with e | e
        · rw [e]; exact ht
        · exact hp2 x e
      · intro h13
        simp only at h13 ⊢
        rw [hc1] at h13
        rw [hp3 (fun hm => h13 (List.mem_append_right _ hm))]
        have := hc2 (fun hm => h13 (List.mem_append_left _ hm))
        rw [show l1.line = (advance line col c).1 from congrArg Prod.fst this,
          show l1.col = (advance line col c).2 from congrArg Prod.snd this]
        conv_rhs => rw [hc1]
        rw [advance_append]
    | done t l1 =>
      rw [hd] at h
      simp only [Res.ok.injEq, Prod.mk.injEq] at h
      obtain ⟨h1, -, h3⟩ := h
      subst h3
      obtain ⟨e1, _, e3⟩ := pass_done _ _ _ _ _ hd
      exact ⟨[], by rw [← h1, e1]; simp, by simp, fun _ => e3⟩
    | fail e l1 =>
      rw [hd] at h
      simp at h

/-- An error return carries the nil slice, and some pass met an unterminated block
comment or quoted literal: the unread bytes hold a `/*`, a backtick or a `"`. -/
theorem parseLoop_error (fuel : Nat) : ∀ (l : Lexer) (tokens ts : List Token) (e : Error)
    (l' : Lexer), Lexer.parseLoop fuel l tokens = Res.ok (ts, some e, l') →
    ts = [] ∧ ([47, 42] <:+: l.buf.data ∨ (96 : Byte) ∈ l.buf.data ∨ (34 : Byte) ∈ l.buf.data) := by
  induction fuel with
  | zero => intro l tokens ts e l' h; simp [Lexer.parseLoop] at h
  | succ fuel ih =>
    intro l tokens ts e l' h
    obtain ⟨col, line, ⟨data, lb⟩⟩ := l
    rw [parseLoop_succ] at h
    cases hd : dispatch (skipWS col line data) with
    | append t l1 =>
      rw [hd] at h
      obtain ⟨_, c, _, hc1, _⟩ := pass_append _ _ _ _ _ hd
      obtain ⟨h1, h2⟩ := ih l1 _ ts e l' h
      refine ⟨h1, ?_⟩
      simp only
      rw [hc1]
      rcases h2 with h2 | h2 | h2
      · exact Or.inl (h2.trans (List.suffix_append c _).isInfix)
      · exact Or.inr (Or.inl (List.mem_append_right _ h2))
      · exact Or.inr (Or.inr (List.mem_append_right _ h2))
    | done t l1 =>
      rw [hd] at h
      simp at h
    | fail e1 l1 =>
      rw [hd] at h
      simp only [Res.ok.injEq, Prod.mk.injEq] at h
      obtain ⟨ws, rest, hr, _, hcase⟩ := pass_fail _ _ _ _ _ hd
      refine ⟨h.1.symm, ?_⟩
      simp only
      rw [hr]
      rcases hcase with ⟨r, rfl, _⟩ | ⟨r, rfl, _⟩ | ⟨r, rfl, _⟩
      · exact Or.inl ⟨ws, r, by simp⟩
      · exact Or.inr (Or.inl (by simp))
      · exact Or.inr (Or.inr (by simp))


theorem parseLoop_fuel (f1 : Nat) : ∀ (f2 : Nat) (l : Lexer) (tokens : List Token),
    l.buf.data.length < f1 → l.buf.data.length < f2 →
    Lexer.parseLoop f1 l tokens = Lexer.parseLoop f2 l tokens := by
  induction f1 with
  | zero => intro f2 l tokens h; omega
  | succ f1 ih =>
    intro f2 l tokens h1 h2
    cases f2 with
    | zero => omega
    | succ f2 =>
      obtain ⟨col, line, ⟨data, lb⟩⟩ := l
      rw [parseLoop_succ, parseLoop_succ]
      cases hd : dispatch (skipWS col line data) with
      | append t l' =>
        obtain ⟨_, c, hc0, hc1, _⟩ := pass_append _ _ _ _ _ hd
        have hlen : l'.buf.data.length < data.length := by
          have : 0 < c.length := List.length_pos.mpr hc0
          have e : data.length = c.length + l'.buf.data.length := by
            rw [hc1, List.length_append]
          omega
        simp only at h1 h2 ⊢
        exact ih f2 l' _ (by omega) (by omega)
      | done t l' => rfl
      | fail e l' => rfl

theorem advance_snoc (xs : List Byte) (b : Byte) (line col : Nat) :
    advance line col (xs ++ [b])
      = if b = 10 then ((advance line col xs).1 + 1, 0)
        else ((advance line col xs).1, (advance line col xs).2 + 1) := by
  rw [advance_append]
  by_cases h : b = 10 <;> simp [advance, h]

/-- From (0,0), `advance` counts the LF bytes and the bytes after the last LF. -/
theorem advance_zero (data : List Byte) :
    advance 0 0 data
      = (data.count 10, (data.reverse.takeWhile (fun b => decide (b ≠ 10))).length) := by
  induction data using List.reverseRecOn with
  | nil => simp [advance]
  | append_singleton xs b ih =>
    rw [advance_snoc, ih]
    by_cases h : b = 10
    · subst h
      simp
    · have h' : ¬ (10 : Byte) = b := fun e => h e.symm
      simp [h, List.count_append, List.count_cons, h']

theorem parse_success_shape (l : Lexer) (data : List Byte) (ts : List Token) (l' : Lexer)
    (h : l.parse data = Res.ok (ts, none, l')) :
    ∃ pre, ts = pre ++ [NewToken [] ⟨l'.line, l'.col⟩ TokenType.EOF]
      ∧ (∀ x ∈ pre, x.Typ ≠ TokenType.EOF)
      ∧ ((13 : Byte) ∉ data → (l'.line, l'.col) = advance l.line l.col data) := by
  obtain ⟨pre, h1, h2, h3⟩ := parseLoop_success _ _ _ _ _ h
  exact ⟨pre, by simpa using h1, h2, h3⟩

/-- C1: whenever `parse` succeeds (from any receiver, the fresh `Lexer` included), the
returned list holds exactly one token of type `EOF`, that token is the last element,
and its text is empty. -/
theorem parse_EOF_once_and_last (l : Lexer) (data : List Byte) (ts : List Token) (l' : Lexer)
    (h : l.parse data = Res.ok (ts, none, l')) :
    ts.countP (fun t => decide (t.Typ = TokenType.EOF)) = 1
    ∧ ∃ t, ts.getLast? = some t ∧ t.Typ = TokenType.EOF ∧ t.Text = [] := by
  obtain ⟨pre, h1, h2, _⟩ := parse_success_shape l data ts l' h
  subst h1
  constructor
  · have : List.countP (fun t => decide (t.Typ = TokenType.EOF)) pre = 0 := by
      rw [List.countP_eq_zero]
      intro a ha
      simpa using h2 a ha
    simp [List.countP_append, this, NewToken]
  · exact ⟨_, List.getLast?_concat _, rfl, rfl⟩

theorem parse_EOF_once_and_last_witness :
    Lexer.fresh.parse (bytes "foo bar baz")
        = Res.ok ([NewToken (bytes "foo") ⟨0, 0⟩ TokenType.Ident,
            NewToken (bytes "bar") ⟨0, 4⟩ TokenType.Ident,
            NewToken (bytes "baz") ⟨0, 8⟩ TokenType.Ident,
            NewToken [] ⟨0, 11⟩ TokenType.EOF], none, ⟨11, 0, ⟨[], none⟩⟩)
    ∧ [NewToken (bytes "foo") ⟨0, 0⟩ TokenType.Ident,
        NewToken (bytes "bar") ⟨0, 4⟩ TokenType.Ident,
        NewToken (bytes "baz") ⟨0, 8⟩ TokenType.Ident,
        NewToken [] ⟨0, 11⟩ TokenType.EOF].countP (fun t => decide (t.Typ = TokenType.EOF)) = 1 :=
  ⟨by decide, (parse_EOF_once_and_last Lexer.fresh (bytes "foo bar baz") _ ⟨11, 0, ⟨[], none⟩⟩
    (by decide)).1⟩


/-! ## Identifier words -/

theorem scanWord_word (w : List Byte)
    (hw : ∀ b ∈ w, b ≠ 32 ∧ b ≠ 9 ∧ b ≠ 13 ∧ b ≠ 10 ∧ b ≠ 59) (rest : List Byte) :
    ∀ (col line : Nat) (lb : Option Byte) (buf : List Byte),
      ∃ lb', scanWord col line lb buf (w ++ rest)
        = scanWord (col + w.length) line lb' (buf ++ w) rest := by
  induction w with
  | nil => intro col line lb buf; exact ⟨lb, by simp⟩
  | cons b w ih =>
    intro col line lb buf
    obtain ⟨h1, h2, h3, h4, h5⟩ := hw b (by simp)
    obtain ⟨lb', e⟩ := ih (fun x hx => hw x (List.mem_cons_of_mem _ hx)) (col + 1) line
      (some b) (buf ++ [b])
    refine ⟨lb', ?_⟩
    rw [List.cons_append, scanWord]
    simp only [h1, h2, h3, h4, h5, if_false, or_self]
    rw [e]
    simp [Nat.add_assoc, Nat.add_comm 1]

theorem two_prefix_append (a : Byte) (w rest : List Byte) (hw : w ≠ [])
    (h1 : ¬ [47, a] <+: w) (h2 : ∀ x ∈ rest.head?, x ≠ a) :
    ¬ [47, a] <+: (w ++ rest) := by
  rintro ⟨t, ht⟩
  cases w with
  | nil => exact hw rfl
  | cons b w =>
    cases w with
    | nil =>
      cases rest with
      | nil => simp at ht
      | cons r rest =>
        simp at ht
        exact h2 r (by simp) ht.2.1.symm
    | cons c w =>
      simp at ht
      apply h1
      rw [← ht.1, ← ht.2.1]
      exact ⟨w, rfl⟩

theorem identWord_head (w : List Byte) (h : identWord w) :
    ∃ b w', w = b :: w' ∧ isWS b = false ∧ b ≠ 59 := by
  obtain ⟨h0, h1, _⟩ := h
  cases w with
  | nil => exact absurd rfl h0
  | cons b w' =>
    obtain ⟨e1, e2, e3, e4, e5⟩ := h1 b (by simp)
    exact ⟨b, w', rfl, (isWS_false_iff b).mpr ⟨e1, e2, e3, e4⟩, e5⟩

theorem identWord_wordStart (w rest : List Byte) (h : identWord w)
    (hr : ∀ x ∈ rest.head?, x ≠ 47 ∧ x ≠ 42) : wordStart (w ++ rest) := by
  obtain ⟨b, w', rfl, _, hb⟩ := identWord_head w h
  obtain ⟨h0, _, h2, h3, h4, h5, h6, h7⟩ := h
  refine ⟨by simp, two_prefix_append 47 _ rest h0 h6 (fun x hx => (hr x hx).1),
    two_prefix_append 42 _ rest h0 h7 (fun x hx => (hr x hx).2), ?_, ?_, ?_, ?_, ?_⟩
  · simpa using h5
  · simpa using h4
  · simpa using h2
  · simpa using h3
  · simpa using hb

/-- One pass over an identifier word `w` followed by `rest`: the word is scanned as
one piece and the pass goes on with whatever `ReadUntilWhiteSpace` does on `rest`. -/
theorem pass_word (w rest : List Byte) (h : identWord w)
    (hr : ∀ x ∈ rest.head?, x ≠ 47 ∧ x ≠ 42) (col line : Nat) :
    ∃ lb', dispatch (skipWS col line (w ++ rest))
      = Pass.append
          (NewToken (scanWord (col + w.length) line lb' w rest).1 ⟨line, col⟩ TokenType.Ident)
          (scanWord (col + w.length) line lb' w rest).2.2 := by
  obtain ⟨b, w', e, hws, _⟩ := identWord_head w h
  have hskip : skipWS col line (w ++ rest) = ⟨col, line, ⟨w ++ rest, none⟩⟩ := by
    apply skipWS_of_not_ws
    intro x hx
    rw [e] at hx
    simp at hx
    rw [← hx]
    exact hws
  obtain ⟨lb', hsw⟩ := scanWord_word w h.2.1 rest col line none []
  refine ⟨lb', ?_⟩
  rw [hskip, dispatch_word _ _ _ _ (identWord_wordStart w rest h hr), hsw]
  simp

/-- C6: for an identifier word `w`, parsing `w` followed immediately by `;` from a
fresh lexer gives exactly `Ident(w)` at (0,0), `Semicolon(";")` at (0,|w|) and `EOF`
at (0,|w|+1): the `;` is not part of the identifier and is a token of its own at the
column right after it. -/
theorem ident_semicolon_no_space (w : List Byte) (h : identWord w) :
    Lexer.fresh.parse (w ++ [59])
      = Res.ok ([NewToken w ⟨0, 0⟩ TokenType.Ident,
          NewToken [59] ⟨0, w.length⟩ TokenType.Semicolon,
          NewToken [] ⟨0, w.length + 1⟩ TokenType.EOF], none,
          ⟨w.length + 1, 0, ⟨[], none⟩⟩) := by
  obtain ⟨lb', hp⟩ := pass_word w [59] h (by simp) 0 0
  obtain ⟨k, hk⟩ : ∃ k, w.length = k + 1 :=
    ⟨w.length - 1, (Nat.succ_pred_eq_of_pos (List.length_pos.mpr h.1)).symm⟩
  have hfuel : (w ++ [59]).length + 1 = (k + 1 + 1) + 1 := by simp [hk]
  have hs : skipWS (0 + w.length) 0 [59] = ⟨0 + w.length, 0, ⟨[59], none⟩⟩ :=
    skipWS_of_not_ws _ _ _ (by simp; decide)
  simp only [Lexer.parse, Lexer.fresh, NewReader]
  rw [hfuel, parseLoop_succ, hp]
  simp only [scanWord, if_true]
  rw [parseLoop_succ, hs, dispatch_punct 59 (by simp)]
  simp only
  rw [parseLoop_succ]
  simp [skipWS, dispatch_nil, NewToken]

theorem ident_semicolon_no_space_witness :
    identWord (bytes "baz")
    ∧ Lexer.fresh.parse (bytes "baz" ++ [59])
      = Res.ok ([NewToken (bytes "baz") ⟨0, 0⟩ TokenType.Ident,
          NewToken [59] ⟨0, 3⟩ TokenType.Semicolon,
          NewToken [] ⟨0, 4⟩ TokenType.EOF], none, ⟨4, 0, ⟨[], none⟩⟩) :=
  ⟨by decide, ident_semicolon_no_space (bytes "baz") (by decide)⟩


/-! ## Scan errors -/

/-- A first pass that meets, after whitespace, an opener whose closer is missing. -/
theorem parse_fails_at_opener (l : Lexer) (ws rest : List Byte) (hws : ∀ b ∈ ws, isWS b = true)
    (hrest : (∃ r, rest = 47 :: 42 :: r ∧ ¬ [42, 47] <:+: r)
      ∨ (∃ r, rest = 96 :: r ∧ (96 : Byte) ∉ r)
      ∨ (∃ r, rest = 34 :: r ∧ (34 : Byte) ∉ r)) :
    ∃ e l', l.parse (ws ++ rest) = Res.ok ([], some e, l')
      ∧ l.Parse (ws ++ rest) = Res.ok (none, some e, l') := by
  have hpass : ∃ e l', dispatch (skipWS l.col l.line (ws ++ rest)) = Pass.fail e l' := by
    rw [skipWS_append ws hws]
    rcases hrest with ⟨r, rfl, hr⟩ | ⟨r, rfl, hr⟩ | ⟨r, rfl, hr⟩
    · rw [skipWS_cons_other _ _ _ _ (by decide), dispatch_block_comment,
        scanUntil_fails_without_delim 42 [47] false r hr]
      exact ⟨_, _, rfl⟩
    · have hr' : ¬ [96] <:+: r := fun hi => hr (hi.subset (List.mem_singleton_self _))
      rw [skipWS_cons_other _ _ _ _ (by decide), dispatch_string 96 (by simp),
        scanUntil_fails_without_delim 96 [] false r hr']
      exact ⟨_, _, rfl⟩
    · have hr' : ¬ [34] <:+: r := fun hi => hr (hi.subset (List.mem_singleton_self _))
      rw [skipWS_cons_other _ _ _ _ (by decide), dispatch_string 34 (by simp),
        scanUntil_fails_without_delim 34 [] false r hr']
      exact ⟨_, _, rfl⟩
  obtain ⟨e, l', hd⟩ := hpass
  have hparse : l.parse (ws ++ rest) = Res.ok ([], some e, l') := by
    simp only [Lexer.parse, NewReader]
    rw [parseLoop_succ, hd]
  exact ⟨e, l', hparse, by simp [Lexer.Parse, hparse]⟩

/-- C7: optional whitespace, then an opener (`/*`, a backtick or `"`), then a
remainder without the matching closer (`*/`, a backtick or `"`): `parse` returns an
error with the nil token list, and `Parse` a nil `TokenStream` with that error. -/
theorem unterminated_opener_is_error (l : Lexer) (ws rem : List Byte)
    (hws : ∀ b ∈ ws, b = 32 ∨ b = 9 ∨ b = 13 ∨ b = 10) :
    (¬ [42, 47] <:+: rem →
      ∃ e l', l.parse (ws ++ [47, 42] ++ rem) = Res.ok ([], some e, l')
        ∧ l.Parse (ws ++ [47, 42] ++ rem) = Res.ok (none, some e, l'))
    ∧ ((96 : Byte) ∉ rem →
      ∃ e l', l.parse (ws ++ [96] ++ rem) = Res.ok ([], some e, l')
        ∧ l.Parse (ws ++ [96] ++ rem) = Res.ok (none, some e, l'))
    ∧ ((34 : Byte) ∉ rem →
      ∃ e l', l.parse (ws ++ [34] ++ rem) = Res.ok ([], some e, l')
        ∧ l.Parse (ws ++ [34] ++ rem) = Res.ok (none, some e, l')) := by
  have hws' : ∀ b ∈ ws, isWS b = true := fun b hb => (isWS_iff b).mpr (hws b hb)
  refine ⟨fun h => ?_, fun h => ?_, fun h => ?_⟩
  · rw [List.append_assoc]
    exact parse_fails_at_opener l ws _ hws' (Or.inl ⟨rem, rfl, h⟩)
  · rw [List.append_assoc]
    exact parse_fails_at_opener l ws _ hws' (Or.inr (Or.inl ⟨rem, rfl, h⟩))
  · rw [List.append_assoc]
    exact parse_fails_at_opener l ws _ hws' (Or.inr (Or.inr ⟨rem, rfl, h⟩))

theorem unterminated_opener_is_error_witness :
    Lexer.fresh.parse (bytes "  /* comment")
        = Res.ok ([], some (Error.ErrPos 0 12 Error.EOF), ⟨12, 0, ⟨[], some 116⟩⟩)
    ∧ ∃ e l', Lexer.fresh.parse (bytes "  " ++ [47, 42] ++ bytes " comment")
          = Res.ok ([], some e, l')
        ∧ Lexer.fresh.Parse (bytes "  " ++ [47, 42] ++ bytes " comment")
          = Res.ok (none, some e, l') :=
  ⟨by decide,
    (unterminated_opener_is_error Lexer.fresh (bytes "  ") (bytes " comment")
      (by decide)).1 (by decide)⟩


theorem unterminated_contains (data : List Byte) (h : unterminated data) :
    (34 : Byte) ∈ data ∨ (96 : Byte) ∈ data ∨ [47, 42] <:+: data := by
  obtain ⟨pre, r, h | h | h⟩ := h
  · exact Or.inr (Or.inr ⟨pre, r, by rw [h.1]; simp⟩)
  · exact Or.inr (Or.inl (by rw [h.1]; simp))
  · exact Or.inl (by rw [h.1]; simp)

theorem unterminated_append (c data : List Byte) (h : unterminated data) :
    unterminated (c ++ data) := by
  obtain ⟨pre, r, h | h | h⟩ := h
  · exact ⟨c ++ pre, r, Or.inl ⟨by rw [h.1, List.append_assoc], h.2⟩⟩
  · exact ⟨c ++ pre, r, Or.inr (Or.inl ⟨by rw [h.1, List.append_assoc], h.2⟩)⟩
  · exact ⟨c ++ pre, r, Or.inr (Or.inr ⟨by rw [h.1, List.append_assoc], h.2⟩)⟩

theorem parseLoop_error_unterminated (fuel : Nat) :
    ∀ (l : Lexer) (tokens ts : List Token) (e : Error) (l' : Lexer),
      Lexer.parseLoop fuel l tokens = Res.ok (ts, some e, l') → unterminated l.buf.data := by
  induction fuel with
  | zero => intro l tokens ts e l' h; simp [Lexer.parseLoop] at h
  | succ fuel ih =>
    intro l tokens ts e l' h
    obtain ⟨col, line, ⟨data, lb⟩⟩ := l
    rw [parseLoop_succ] at h
    cases hd : dispatch (skipWS col line data) with
    | append t l1 =>
      rw [hd] at h
      obtain ⟨_, c, _, hc1, _⟩ := pass_append _ _ _ _ _ hd
      have := unterminated_append c _ (ih l1 _ ts e l' h)
      rw [← hc1] at this
      exact this
    | done t l1 =>
      rw [hd] at h
      simp at h
    | fail e1 l1 =>
      obtain ⟨ws, rest, hr, _, hcase⟩ := pass_fail _ _ _ _ _ hd
      simp only
      rw [hr]
      rcases hcase with ⟨r, rfl, h1⟩ | ⟨r, rfl, h1⟩ | ⟨r, rfl, h1⟩
      · exact ⟨ws, r, Or.inl ⟨rfl, h1⟩⟩
      · exact ⟨ws, r, Or.inr (Or.inl ⟨rfl, h1⟩)⟩
      · exact ⟨ws, r, Or.inr (Or.inr ⟨rfl, h1⟩)⟩

/-- C8: scan errors arise only from an unterminated block comment or quoted literal.
If `parse` returns an error then some `/*`, backtick or `"` of the input is never
closed, so the input contains a `"`, a backtick or `/*`; and an input with none of
these is scanned successfully (wherever it ends). -/
theorem scan_error_only_if_unterminated (l : Lexer) (data : List Byte) :
    (∀ ts e l', l.parse data = Res.ok (ts, some e, l') →
      unterminated data ∧ ((34 : Byte) ∈ data ∨ (96 : Byte) ∈ data ∨ [47, 42] <:+: data))
    ∧ ((34 : Byte) ∉ data → (96 : Byte) ∉ data → ¬ [47, 42] <:+: data →
        ∃ ts l', l.parse data = Res.ok (ts, none, l')) := by
  have herr : ∀ ts e l', l.parse data = Res.ok (ts, some e, l') → unterminated data := by
    intro ts e l' h
    exact parseLoop_error_unterminated _ _ _ _ _ _ h
  refine ⟨fun ts e l' h => ⟨herr ts e l' h, unterminated_contains data (herr ts e l' h)⟩, ?_⟩
  intro h1 h2 h3
  obtain ⟨⟨ts, err, l'⟩, hr⟩ :=
    parseLoop_returns (data.length + 1) { l with buf := NewReader data } []
      (by simp [NewReader])
  have hp : l.parse data = Res.ok (ts, err, l') := hr
  cases err with
  | none => exact ⟨ts, l', hp⟩
  | some e =>
    rcases unterminated_contains data (herr ts e l' hp) with h | h | h
    · exact absurd h h1
    · exact absurd h h2
    · exact absurd h h3

theorem scan_error_only_if_unterminated_witness :
    ∃ ts l', Lexer.fresh.parse (bytes "a // b") = Res.ok (ts, none, l') :=
  (scan_error_only_if_unterminated Lexer.fresh (bytes "a // b")).2
    (by decide) (by decide) (by decide)

/-- C9: for an input without CR on which `parse` from a fresh lexer succeeds, the `EOF`
token stands at line = number of LF bytes of the input and column = number of bytes
after the last LF (the whole length if there is none). -/
theorem EOF_position_counts_input (data : List Byte) (ts : List Token) (l' : Lexer)
    (hcr : (13 : Byte) ∉ data) (h : Lexer.fresh.parse data = Res.ok (ts, none, l')) :
    ∀ t ∈ ts, t.Typ = TokenType.EOF →
      t.Pos.Line = data.count 10
      ∧ t.Pos.Column = (data.reverse.takeWhile (fun b => decide (b ≠ 10))).length := by
  obtain ⟨pre, h1, h2, h3⟩ := parse_success_shape _ data ts l' h
  have hpos := h3 hcr
  simp only [Lexer.fresh] at hpos
  rw [advance_zero] at hpos
  intro t ht hty
  rw [h1] at ht
  rcases List.mem_append.mp ht with hm | hm
  · exact absurd hty (h2 t hm)
  · rw [List.mem_singleton.mp hm]
    simp only [NewToken]
    exact ⟨congrArg Prod.fst hpos, congrArg Prod.snd hpos⟩

theorem EOF_position_counts_input_witness :
    (NewToken [] ⟨2, 4⟩ TokenType.EOF).Pos.Line = (bytes "a\n/*\n*/ b").count 10
    ∧ (NewToken [] ⟨2, 4⟩ TokenType.EOF).Pos.Column
        = ((bytes "a\n/*\n*/ b").reverse.takeWhile (fun b => decide (b ≠ 10))).length :=
  ⟨by decide,
    (EOF_position_counts_input (bytes "a\n/*\n*/ b")
      [NewToken (bytes "a") ⟨0, 0⟩ TokenType.Ident,
        NewToken (bytes "\n") ⟨1, 2⟩ TokenType.Comment,
        NewToken (bytes "b") ⟨2, 3⟩ TokenType.Ident,
        NewToken [] ⟨2, 4⟩ TokenType.EOF] ⟨4, 2, ⟨[], none⟩⟩
      (by decide) (by decide) (NewToken [] ⟨2, 4⟩ TokenType.EOF) (by decide) rfl).2⟩

/-- After any identifier word `w`, a CR LF pair moves the lexer on by two lines: the
CR branch of `ReadUntilWhiteSpace` counts a line and leaves the LF unread, and
`EatWhiteSpace` counts the LF again. -/
theorem crlf_after_word (w : List Byte) (h : identWord w) :
    Lexer.fresh.parse (w ++ [13, 10] ++ w)
      = Res.ok ([NewToken w ⟨0, 0⟩ TokenType.Ident,
          NewToken w ⟨2, 0⟩ TokenType.Ident,
          NewToken [] ⟨2, w.length⟩ TokenType.EOF], none, ⟨w.length, 2, ⟨[], none⟩⟩) := by
  obtain ⟨lb1, hp1⟩ := pass_word w (13 :: 10 :: w) h (by simp) 0 0
  obtain ⟨lb2, hp2⟩ := pass_word w [] h (by simp) 0 2
  simp only [List.append_nil] at hp2
  simp only [Lexer.parse, Lexer.fresh, NewReader, List.append_assoc, List.cons_append,
    List.nil_append]
  rw [parseLoop_succ, hp1]
  simp only [scanWord]
  simp only [List.head?_cons, if_true, show ¬ ((13 : Byte) = 59) by decide,
    show ¬ ((13 : Byte) = 32 ∨ (13 : Byte) = 9) by decide, if_false]
  rw [parseLoop_fuel _ ((10 :: w).length + 1) _ _ (by simp) (by simp),
    parseLoop_succ, skipWS_cons_lf, hp2]
  simp only [scanWord]
  rw [parseLoop_fuel _ (0 + 1) _ _ (by simp) (by simp), parseLoop_succ]
  simp [skipWS, dispatch_nil, NewToken]

/-- C10 (the code departs from the claim): a CR LF pair directly after an identifier
is counted as two lines. For `w CR LF w` the second identifier and `EOF` are put on
line 2, where the claim has line 1. -/
theorem crlf_after_ident_two_lines :
    Lexer.fresh.parse (bytes "w\r\nw")
      = Res.ok ([NewToken (bytes "w") ⟨0, 0⟩ TokenType.Ident,
          NewToken (bytes "w") ⟨2, 0⟩ TokenType.Ident,
          NewToken [] ⟨2, 1⟩ TokenType.EOF], none, ⟨1, 2, ⟨[], none⟩⟩) := by
  decide


/-! ## Rendering -/

theorem Token_String_differs_from_spec :
    (NewToken (bytes "port") ⟨3, 14⟩ TokenType.Ident).String
      ≠ bytes "port" ++ bytes ", near: [line: " ++ decimal 3 ++ bytes ", col: " ++ decimal 14
          ++ bytes "]" := by
  decide

/-- C15 (amended): the rendering `t.String()` of a token is exactly
`Text: <text>, near: [line: L, col: C]`, with `<text>` the token text and `L`, `C` the
decimal renderings of its line and column; the leading `Text: ` is part of it. -/
theorem Token_String_format (t : Token) :
    t.String
      = bytes "Text: " ++ t.Text ++ bytes ", near: [line: " ++ decimal t.Pos.Line
          ++ bytes ", col: " ++ decimal t.Pos.Column ++ bytes "]" := by
  simp [Token.String, Position.String, List.append_assoc]
  rfl

/-! ## Reuse of a lexer -/

/-- C14 (the code departs from the claim): `parse` installs a new reader but never
resets the counters `col` and `line` of the receiver. A fresh lexer scans `a` as
`Ident(a)` at (0,0) and `EOF` at (0,1); the lexer left by that parse scans the same
bytes again as `Ident(a)` at (0,1) and `EOF` at (0,2), so the same input does not give
the same token list. -/
theorem parse_keeps_old_counters :
    Lexer.fresh.parse (bytes "a")
        = Res.ok ([NewToken (bytes "a") ⟨0, 0⟩ TokenType.Ident,
            NewToken [] ⟨0, 1⟩ TokenType.EOF], none, ⟨1, 0, ⟨[], none⟩⟩)
    ∧ Lexer.parse ⟨1, 0, ⟨[], none⟩⟩ (bytes "a")
        = Res.ok ([NewToken (bytes "a") ⟨0, 1⟩ TokenType.Ident,
            NewToken [] ⟨0, 2⟩ TokenType.EOF], none, ⟨2, 0, ⟨[], none⟩⟩)
    ∧ Lexer.fresh.parse (bytes "a") ≠ Lexer.parse ⟨1, 0, ⟨[], none⟩⟩ (bytes "a") := by
  decide


/-! ## What `ReadUntil` returns -/

theorem scanUntil_hit (delim : Byte) (tail : List Byte) (incl : Bool) (rest : List Byte)
    (hp : tail <+: rest) (col line : Nat) (lb : Option Byte) (buf : List Byte) :
    (scanUntil delim tail incl col line lb buf (delim :: rest)).1
        = (if incl then buf ++ delim :: tail else buf)
    ∧ (scanUntil delim tail incl col line lb buf (delim :: rest)).2.1 = none
    ∧ (scanUntil delim tail incl col line lb buf (delim :: rest)).2.2.buf.data
        = rest.drop tail.length := by
  by_cases ht : tail = []
  · subst ht
    cases incl <;> simp [scanUntil]
  · cases incl <;> simp [scanUntil, ht, hp]

theorem scanUntil_skip (delim : Byte) (tail : List Byte) (incl : Bool) (b : Byte)
    (rest : List Byte) (hn : ¬ (b = delim ∧ tail <+: rest))
    (col line : Nat) (lb : Option Byte) (buf : List Byte) :
    ∃ lb', scanUntil delim tail incl col line lb buf (b :: rest)
      = scanUntil delim tail incl (if b = 10 then 0 else col + 1)
          (if b = 10 then line + 1 else line) lb' (buf ++ [b]) rest := by
  by_cases hd : b = delim
  · have hp : ¬ tail <+: rest := fun h => hn ⟨hd, h⟩
    have ht : ¬ tail = [] := fun e => hp (e ▸ List.nil_prefix)
    exact ⟨none, by simp [scanUntil, hd, ht, hp]⟩
  · exact ⟨some b, by simp [scanUntil, hd]⟩

/-- When the first occurrence of the delimiter `delim :: tail` in `s ++ delim :: tail`
starts at index `|s|`, the scan over `s ++ delim :: tail ++ r` returns `s` (with the
delimiter when asked to include it), no error, and leaves `r` unread. -/
theorem scanUntil_first_occurrence (delim : Byte) (tail : List Byte) (incl : Bool)
    (s r : List Byte)
    (hfirst : ∀ i, i < s.length → ¬ (delim :: tail) <+: (s ++ delim :: tail).drop i) :
    ∀ (col line : Nat) (lb : Option Byte) (buf : List Byte),
      (scanUntil delim tail incl col line lb buf (s ++ delim :: tail ++ r)).1
          = (if incl then buf ++ s ++ delim :: tail else buf ++ s)
      ∧ (scanUntil delim tail incl col line lb buf (s ++ delim :: tail ++ r)).2.1 = none
      ∧ (scanUntil delim tail incl col line lb buf (s ++ delim :: tail ++ r)).2.2.buf.data
          = r := by
  induction s with
  | nil =>
    intro col line lb buf
    have := scanUntil_hit delim tail incl (tail ++ r) (List.prefix_append _ _) col line lb buf
    simpa using this
  | cons b s ih =>
    intro col line lb buf
    have h0 := hfirst 0 (by simp)
    simp only [List.drop_zero, List.cons_append] at h0
    have hrest : ∀ i, i < s.length → ¬ (delim :: tail) <+: (s ++ delim :: tail).drop i := by
      intro i hi
      have := hfirst (i + 1) (by simp; omega)
      simpa using this
    have hnot : ¬ (b = delim ∧ tail <+: s ++ delim :: tail ++ r) := by
      rintro ⟨hb, hp⟩
      apply h0
      rw [hb]
      apply (List.prefix_cons_inj delim).mpr
      have hq : s ++ delim :: tail <+: s ++ delim :: tail ++ r := List.prefix_append _ _
      exact List.prefix_of_prefix_length_le hp hq (by simp; omega)
    obtain ⟨lb', e⟩ := scanUntil_skip delim tail incl b (s ++ delim :: tail ++ r) hnot
      col line lb buf
    have := ih hrest (if b = 10 then 0 else col + 1) (if b = 10 then line + 1 else line) lb'
      (buf ++ [b])
    simp only [List.cons_append] at e ⊢
    rw [e]
    simpa using this

/-- If the delimiter does not occur in the unread bytes, the scan consumes them all
and reports `io.EOF`, handing back everything it read. -/
theorem scanUntil_no_occurrence (delim : Byte) (tail : List Byte) (incl : Bool)
    (data : List Byte) (h : ¬ (delim :: tail) <:+: data) :
    ∀ (col line : Nat) (lb : Option Byte) (buf : List Byte),
      (scanUntil delim tail incl col line lb buf data).1 = buf ++ data
      ∧ (scanUntil delim tail incl col line lb buf data).2.1 = some Error.EOF
      ∧ (scanUntil delim tail incl col line lb buf data).2.2.buf.data = [] := by
  induction data with
  | nil => intro col line lb buf; simp [scanUntil]
  | cons b rest ih =>
    intro col line lb buf
    have hrest : ¬ (delim :: tail) <:+: rest := fun hi =>
      h (hi.trans (List.suffix_cons b rest).isInfix)
    have hnot : ¬ (b = delim ∧ tail <+: rest) := by
      rintro ⟨hb, hp⟩
      apply h
      rw [hb]
      exact ((List.prefix_cons_inj delim).mpr hp).isInfix
    obtain ⟨lb', e⟩ := scanUntil_skip delim tail incl b rest hnot col line lb buf
    rw [e]
    simpa using ih hrest (if b = 10 then 0 else col + 1) (if b = 10 then line + 1 else line)
      lb' (buf ++ [b])


/-- A delimiter whose tail does not fit the reader's buffer is never matched: the
look-ahead `Peek(n - 1)` answers `ErrBufferFull` each time, every byte is written to
the text, and the loop ends with `io.EOF` at the end of the input. -/
theorem ReadUntilLoop_long (delim : Byte) (tail : List Byte) (incl : Bool)
    (hbig : defaultBufSize < tail.length) (fuel : Nat) :
    ∀ (col line : Nat) (data : List Byte) (lb : Option Byte) (buf : List Byte),
    data.length < fuel →
    ∃ l', Lexer.ReadUntilLoop (delim :: tail) delim (tail.length + 1) incl fuel
        ⟨col, line, ⟨data, lb⟩⟩ buf = Res.ok (buf ++ data, some Error.EOF, l')
      ∧ l'.buf.data = [] := by
  have hlen : ¬ tail.length = 0 := by
    intro e
    rw [e] at hbig
    exact absurd hbig (Nat.not_lt_zero _)
  induction fuel with
  | zero => intro _ _ _ _ _ h; omega
  | succ fuel ih =>
    intro col line data lb buf h
    cases data with
    | nil => exact ⟨⟨col, line, ⟨[], lb⟩⟩, by simp [Lexer.ReadUntilLoop, Reader.ReadByte], rfl⟩
    | cons b rest =>
      have hr : rest.length < fuel := by simpa using h
      by_cases hd : b = delim
      · by_cases hn : b = 10
        · obtain ⟨l', h1, h2⟩ := ih 0 (line + 1) rest none (buf ++ [b]) hr
          refine ⟨l', ?_, h2⟩
          rw [show buf ++ [b] ++ rest = buf ++ b :: rest by simp] at h1
          rw [← h1, Lexer.ReadUntilLoop]
          simp [Reader.ReadByte, Reader.Peek, hn, ← hd, hlen, hbig]
        · obtain ⟨l', h1, h2⟩ := ih (col + 1) line rest none (buf ++ [b]) hr
          refine ⟨l', ?_, h2⟩
          rw [show buf ++ [b] ++ rest = buf ++ b :: rest by simp] at h1
          rw [← h1, Lexer.ReadUntilLoop]
          simp [Reader.ReadByte, Reader.Peek, hn, ← hd, hlen, hbig]
      · obtain ⟨l', h1, h2⟩ := ih (if b = 10 then 0 else col + 1)
          (if b = 10 then line + 1 else line) rest (some b) (buf ++ [b]) hr
        refine ⟨l', ?_, h2⟩
        rw [show buf ++ [b] ++ rest = buf ++ b :: rest by simp] at h1
        rw [← h1]
        by_cases hn : b = 10
        · have hd' : ¬ (10 : Byte) = delim := hn ▸ hd
          simp [Lexer.ReadUntilLoop, Reader.ReadByte, hn, hd']
        · simp [Lexer.ReadUntilLoop, Reader.ReadByte, hn, hd]

theorem ReadUntil_long (l : Lexer) (delim : Byte) (tail : List Byte) (incl : Bool)
    (hbig : defaultBufSize < tail.length) :
    ∃ l', l.ReadUntil (delim :: tail) incl = Res.ok (l.buf.data, some Error.EOF, l')
      ∧ l'.buf.data = [] := by
  obtain ⟨col, line, ⟨data, lb⟩⟩ := l
  obtain ⟨l', h1, h2⟩ := ReadUntilLoop_long delim tail incl hbig (data.length + 1) col line
    data lb [] (Nat.lt_succ_self _)
  exact ⟨l', by simpa using h1, h2⟩

/-- A delimiter of 4098 bytes `a` is not found although the unread bytes start with
it: the scan runs to the end of the input and returns `io.EOF` with all bytes read. -/
theorem ReadUntil_long_delimiter_not_found :
    List.replicate 4098 (97 : Byte) ≠ []
    ∧ (∀ i, i < ([] : List Byte).length →
        ¬ List.replicate 4098 (97 : Byte) <+: ([] ++ List.replicate 4098 (97 : Byte)).drop i)
    ∧ (∃ l', Lexer.ReadUntil ⟨0, 0, ⟨[] ++ List.replicate 4098 (97 : Byte) ++ [98], none⟩⟩
          (List.replicate 4098 (97 : Byte)) false
        = Res.ok ([] ++ List.replicate 4098 (97 : Byte) ++ [98], some Error.EOF, l')
        ∧ l'.buf.data = [])
    ∧ ¬ ∃ l', Lexer.ReadUntil ⟨0, 0, ⟨[] ++ List.replicate 4098 (97 : Byte) ++ [98], none⟩⟩
          (List.replicate 4098 (97 : Byte)) false
        = Res.ok ([], none, l') ∧ l'.buf.data = [98] := by
  have hbig : defaultBufSize < (List.replicate 4097 (97 : Byte)).length := by
    rw [List.length_replicate]
    exact Nat.lt_succ_self 4096
  have hrun := ReadUntil_long ⟨0, 0, ⟨[] ++ List.replicate 4098 (97 : Byte) ++ [98], none⟩⟩
    97 (List.replicate 4097 97) false hbig
  have e : (97 : Byte) :: List.replicate 4097 97 = List.replicate 4098 97 := rfl
  rw [e] at hrun
  refine ⟨?_, ?_, hrun, ?_⟩
  · rw [← e]
    exact List.cons_ne_nil _ _
  · intro i hi
    exact absurd hi (Nat.not_lt_zero _)
  · rintro ⟨l1, h1, _⟩
    obtain ⟨l2, h2, _⟩ := hrun
    rw [h2] at h1
    injection h1 with h1
    injection h1 with _ h1
    injection h1 with h1
    exact absurd h1 (by simp)

/-- C16 (amended): for a non-empty delimiter `d` of at most 4097 bytes (one byte plus
a look-ahead that fits the reader's 4096-byte buffer), if the first occurrence of `d`
in `s ++ d` starts at index `|s|`, then `ReadUntil(d, include)` on the unread bytes
`s ++ d ++ r` returns no error and the text `s` (`s ++ d` when `include` is set) and
leaves exactly `r` unread; a first byte of `d` inside `s` stays ordinary text. If `d`
does not occur in the unread bytes, or `d` is longer than 4097 bytes, `ReadUntil`
consumes them all and returns an error (`io.EOF`) together with the bytes read. -/
theorem ReadUntil_first_occurrence (l : Lexer) (d : List Byte) (hd : d ≠ []) (incl : Bool) :
    (d.length ≤ defaultBufSize + 1 → ∀ s r : List Byte, l.buf.data = s ++ d ++ r →
        (∀ i, i < s.length → ¬ d <+: (s ++ d).drop i) →
        ∃ l', l.ReadUntil d incl = Res.ok (if incl then s ++ d else s, none, l')
          ∧ l'.buf.data = r)
    ∧ (¬ d <:+: l.buf.data →
        ∃ l', l.ReadUntil d incl = Res.ok (l.buf.data, some Error.EOF, l')
          ∧ l'.buf.data = [])
    ∧ (defaultBufSize + 1 < d.length →
        ∃ l', l.ReadUntil d incl = Res.ok (l.buf.data, some Error.EOF, l')
          ∧ l'.buf.data = []) := by
  cases d with
  | nil => exact absurd rfl hd
  | cons delim tail =>
    have hlong : defaultBufSize + 1 < (delim :: tail).length →
        ∃ l', l.ReadUntil (delim :: tail) incl = Res.ok (l.buf.data, some Error.EOF, l')
          ∧ l'.buf.data = [] := by
      intro hl
      exact ReadUntil_long l delim tail incl (by simpa using hl)
    refine ⟨?_, ?_, hlong⟩
    · intro hlen s r hdata hfirst
      have hbuf : tail.length ≤ defaultBufSize := by simpa using hlen
      obtain ⟨col, line, ⟨data, lb⟩⟩ := l
      rw [ReadUntil_eq _ _ _ _ _ _ _ hbuf]
      simp only at hdata
      subst hdata
      obtain ⟨h1, h2, h3⟩ := scanUntil_first_occurrence delim tail incl s r hfirst col line lb []
      refine ⟨(scanUntil delim tail incl col line lb [] (s ++ delim :: tail ++ r)).2.2, ?_, h3⟩
      congr 1
      refine Prod.ext ?_ (Prod.ext h2 rfl)
      rw [h1]
      simp
    · intro hno
      by_cases hbuf : tail.length ≤ defaultBufSize
      · obtain ⟨col, line, ⟨data, lb⟩⟩ := l
        rw [ReadUntil_eq _ _ _ _ _ _ _ hbuf]
        obtain ⟨h1, h2, h3⟩ := scanUntil_no_occurrence delim tail incl data hno col line lb []
        refine ⟨(scanUntil delim tail incl col line lb [] data).2.2, ?_, h3⟩
        congr 1
        exact Prod.ext (by simpa using h1) (Prod.ext h2 rfl)
      · exact ReadUntil_long l delim tail incl (Nat.lt_of_not_le hbuf)

theorem ReadUntil_first_occurrence_witness :
    Lexer.ReadUntil ⟨0, 0, ⟨bytes "a*b*/c", none⟩⟩ [42, 47] false
        = Res.ok (bytes "a*b", none, ⟨5, 0, ⟨bytes "c", none⟩⟩)
    ∧ ∃ l', Lexer.ReadUntil ⟨0, 0, ⟨bytes "a*b*/c", none⟩⟩ [42, 47] false
          = Res.ok (if false then bytes "a*b" ++ [42, 47] else bytes "a*b", none, l')
        ∧ l'.buf.data = bytes "c" :=
  ⟨by decide,
    (ReadUntil_first_occurrence ⟨0, 0, ⟨bytes "a*b*/c", none⟩⟩ [42, 47] (by decide) false).1
      (by decide) (bytes "a*b") (bytes "c") (by decide) (by decide)⟩


/-! ## Resuming the loop -/

theorem parseLoop_lastByte (fuel col line : Nat) (data : List Byte) (lb1 lb2 : Option Byte)
    (tokens : List Token) :
    Lexer.parseLoop fuel ⟨col, line, ⟨data, lb1⟩⟩ tokens
      = Lexer.parseLoop fuel ⟨col, line, ⟨data, lb2⟩⟩ tokens := by
  cases fuel with
  | zero => rfl
  | succ fuel => rw [parseLoop_succ, parseLoop_succ]

/-- The tokens built so far are only carried along: the loop started with `tokens`
returns what it returns when started with the empty slice, with `tokens` in front. -/
theorem parseLoop_carries_tokens (fuel : Nat) : ∀ (l : Lexer) (tokens : List Token),
    Lexer.parseLoop fuel l tokens
      = match Lexer.parseLoop fuel l [] with
        | Res.ok (ts, none, l') => Res.ok (tokens ++ ts, none, l')
        | Res.ok (ts, some e, l') => Res.ok (ts, some e, l')
        | Res.panic => Res.panic
        | Res.outOfFuel => Res.outOfFuel := by
  induction fuel with
  | zero => intro l tokens; rfl
  | succ fuel ih =>
    intro l tokens
    obtain ⟨col, line, ⟨data, lb⟩⟩ := l
    rw [parseLoop_succ, parseLoop_succ]
    cases hd : dispatch (skipWS col line data) with
    | append t l1 =>
      simp only
      rw [ih l1 (tokens ++ [t]), ih l1 ([] ++ [t])]
      cases hr : Lexer.parseLoop fuel l1 [] with
      | ok r =>
        obtain ⟨ts, err, l'⟩ := r
        cases err <;> simp
      | panic => rfl
      | outOfFuel => rfl
    | done t l1 => simp
    | fail e l1 => rfl

/-- A successful loop started at `l` with `tokens` in hand returns `tokens` followed
by what `parse` returns for the unread bytes of `l`, counted from the position of `l`. -/
theorem parseLoop_resume (fuel : Nat) (l : Lexer) (tokens ts : List Token) (l' : Lexer)
    (b : Reader) (hf : l.buf.data.length < fuel)
    (h : Lexer.parseLoop fuel l tokens = Res.ok (ts, none, l')) :
    ∃ ts', ts = tokens ++ ts'
      ∧ Lexer.parse ⟨l.col, l.line, b⟩ l.buf.data = Res.ok (ts', none, l') := by
  obtain ⟨col, line, ⟨data, lb⟩⟩ := l
  have e : Lexer.parse ⟨col, line, b⟩ data = Lexer.parseLoop fuel ⟨col, line, ⟨data, lb⟩⟩ [] := by
    simp only [Lexer.parse, NewReader]
    rw [parseLoop_lastByte _ _ _ _ none lb]
    exact parseLoop_fuel _ _ _ _ (by simp) hf
  rw [parseLoop_carries_tokens] at h
  simp only
  rw [e]
  cases hr : Lexer.parseLoop fuel ⟨col, line, ⟨data, lb⟩⟩ [] with
  | ok r =>
    obtain ⟨ts1, err, l1⟩ := r
    rw [hr] at h
    cases err with
    | none =>
      simp only [Res.ok.injEq, Prod.mk.injEq] at h
      exact ⟨ts1, h.1.symm, by rw [h.2.2]⟩
    | some e1 => simp at h
  | panic => rw [hr] at h; simp at h
  | outOfFuel => rw [hr] at h; simp at h

theorem parseLoop_at_end (fuel col line : Nat) (lb : Option Byte) (tokens : List Token) :
    Lexer.parseLoop (fuel + 1) ⟨col, line, ⟨[], lb⟩⟩ tokens
      = Res.ok (tokens ++ [NewToken [] ⟨line, col⟩ TokenType.EOF], none,
          ⟨col, line, ⟨[], none⟩⟩) := by
  rw [parseLoop_succ]
  simp [skipWS, dispatch_nil]


/-! ## Comments and quoted literals -/

theorem scan_result_eta (x : List Byte × Option Error × Lexer) (text : List Byte)
    (err : Option Error) (rest : List Byte) (p : Nat × Nat)
    (h1 : x.1 = text) (h2 : x.2.1 = err) (h3 : x.2.2.buf.data = rest)
    (h4 : (x.2.2.line, x.2.2.col) = p) :
    ∃ lb', x = (text, err, ⟨p.2, p.1, ⟨rest, lb'⟩⟩) := by
  obtain ⟨t, e, ⟨c, ln, ⟨d, lb⟩⟩⟩ := x
  simp only at h1 h2 h3 h4
  subst h1 h2 h3 h4
  exact ⟨lb, rfl⟩

theorem scanUntil_found_state (delim : Byte) (tail : List Byte) (incl : Bool)
    (htail : (10 : Byte) ∉ tail) (s r : List Byte)
    (hfirst : ∀ i, i < s.length → ¬ (delim :: tail) <+: (s ++ delim :: tail).drop i)
    (col line : Nat) (lb : Option Byte) (buf : List Byte) :
    ∃ lb', scanUntil delim tail incl col line lb buf (s ++ delim :: tail ++ r)
      = (if incl then buf ++ s ++ delim :: tail else buf ++ s, none,
          ⟨(advance line col (s ++ delim :: tail)).2, (advance line col (s ++ delim :: tail)).1,
            ⟨r, lb'⟩⟩) := by
  obtain ⟨h1, h2, h3⟩ := scanUntil_first_occurrence delim tail incl s r hfirst col line lb buf
  obtain ⟨c, hc1, hc2, _, _⟩ :=
    scanUntil_spec delim tail incl htail (s ++ delim :: tail ++ r) col line lb buf
  rw [h3] at hc1
  have hc : c = s ++ delim :: tail := (List.append_cancel_right hc1).symm
  rw [hc] at hc2
  exact scan_result_eta _ _ _ _ _ h1 h2 h3 hc2

theorem scanUntil_eof_state (delim : Byte) (tail : List Byte) (incl : Bool)
    (htail : (10 : Byte) ∉ tail) (data : List Byte) (h : ¬ (delim :: tail) <:+: data)
    (col line : Nat) (lb : Option Byte) (buf : List Byte) :
    ∃ lb', scanUntil delim tail incl col line lb buf data
      = (buf ++ data, some Error.EOF,
          ⟨(advance line col data).2, (advance line col data).1, ⟨[], lb'⟩⟩) := by
  obtain ⟨h1, h2, h3⟩ := scanUntil_no_occurrence delim tail incl data h col line lb buf
  obtain ⟨c, hc1, hc2, _, _⟩ := scanUntil_spec delim tail incl htail data col line lb buf
  rw [h3, List.append_nil] at hc1
  rw [← hc1] at hc2
  exact scan_result_eta _ _ _ _ _ h1 h2 h3 hc2

theorem no_earlier_single (q : Byte) (s : List Byte) (hs : q ∉ s) :
    ∀ i, i < s.length → ¬ [q] <+: (s ++ [q]).drop i := by
  intro i hi hp
  apply hs
  have h1 : q ∈ (s ++ [q]).drop i := hp.subset (List.mem_singleton_self q)
  rw [List.drop_append_of_le_length (Nat.le_of_lt hi)] at hp
  have hne : List.drop i s ≠ [] := by
    intro e
    have := congrArg List.length e
    simp at this
    omega
  obtain ⟨x, xs, hx⟩ := List.exists_cons_of_ne_nil hne
  rw [hx] at hp
  obtain ⟨t, ht⟩ := hp
  simp at ht
  have : q ∈ List.drop i s := by rw [hx, ← ht.1]; simp
  exact List.mem_of_mem_drop this

theorem stripCR_eq (s : List Byte) :
    stripCR s = if s.getLast? = some 13 then s.dropLast else s := by
  unfold stripCR
  rw [List.getLast?_eq_getElem?, List.dropLast_eq_take]
  by_cases h : s[s.length - 1]? = some 13
  · have hpos : s.length > 0 := by
      by_contra hn
      have : s = [] := List.length_eq_zero.mp (by omega)
      subst this
      simp at h
    simp [h, hpos]
  · simp [h]


/-- C11: quoted literals have no escapes and end at the first occurrence of their
delimiter. If `s` has no `"` and parsing `"` ++ `s` ++ `"` ++ `r` from a fresh lexer
succeeds, the first token is `StringLit` with text exactly `s` at (0,1) and the other
tokens are those of `r`, scanned from the position right after the closing quote; the
same with the backtick. So in `body "{"name":"x"}"` the literal is `{` and ends at the
second quote. -/
theorem quoted_literal_ends_at_first_delimiter :
    (∀ q : Byte, q = 34 ∨ q = 96 → ∀ (s r : List Byte) (ts : List Token) (l' : Lexer),
      q ∉ s → Lexer.fresh.parse (q :: (s ++ q :: r)) = Res.ok (ts, none, l') →
      ∃ ts', ts = NewToken s ⟨0, 1⟩ TokenType.StringLit :: ts'
        ∧ Lexer.parse ⟨(advance 0 1 (s ++ [q])).2, (advance 0 1 (s ++ [q])).1, NewReader []⟩ r
            = Res.ok (ts', none, l'))
    ∧ Lexer.fresh.parse (bytes "body \"\x7b\"name\":\"x\"\x7d\"")
        = Res.ok ([NewToken (bytes "body") ⟨0, 0⟩ TokenType.Ident,
            NewToken (bytes "\x7b") ⟨0, 6⟩ TokenType.StringLit,
            NewToken (bytes "name\":\"x\"\x7d\"") ⟨0, 8⟩ TokenType.Ident,
            NewToken [] ⟨0, 19⟩ TokenType.EOF], none, ⟨19, 0, ⟨[], none⟩⟩) := by
  refine ⟨?_, by decide⟩
  intro q hq s r ts l' hs h
  have hq' : q = 96 ∨ q = 34 := hq.symm
  have hws : isWS q = false := by rcases hq with e | e <;> (subst e; decide)
  have e2 : s ++ q :: r = s ++ q :: [] ++ r := by simp
  obtain ⟨lb', hsc⟩ := scanUntil_found_state q [] false (by simp) s r (no_earlier_single q s hs)
    (0 + 1) 0 none []
  simp only [Lexer.parse, Lexer.fresh, NewReader] at h
  rw [parseLoop_succ, skipWS_cons_other _ _ _ _ hws, dispatch_string q hq', e2, hsc] at h
  simp only [List.nil_append, Bool.false_eq_true, if_false] at h
  obtain ⟨ts', h1, h2⟩ := parseLoop_resume _ _ _ _ _ (NewReader []) (by simp; omega) h
  exact ⟨ts', by simpa using h1, h2⟩

theorem quoted_literal_ends_at_first_delimiter_witness :
    ∃ ts', [NewToken (bytes "www") ⟨0, 1⟩ TokenType.StringLit,
          NewToken (bytes "a") ⟨0, 6⟩ TokenType.Ident, NewToken [] ⟨0, 7⟩ TokenType.EOF]
        = NewToken (bytes "www") ⟨0, 1⟩ TokenType.StringLit :: ts'
      ∧ Lexer.parse ⟨(advance 0 1 (bytes "www" ++ [34])).2,
            (advance 0 1 (bytes "www" ++ [34])).1, NewReader []⟩ (bytes " a")
          = Res.ok (ts', none, ⟨7, 0, ⟨[], none⟩⟩) :=
  quoted_literal_ends_at_first_delimiter.1 34 (by decide) (bytes "www") (bytes " a")
    [NewToken (bytes "www") ⟨0, 1⟩ TokenType.StringLit,
      NewToken (bytes "a") ⟨0, 6⟩ TokenType.Ident, NewToken [] ⟨0, 7⟩ TokenType.EOF]
    ⟨7, 0, ⟨[], none⟩⟩ (by decide) (by decide)

/-- C12: for `s` without LF, parsing `//` ++ `s` from a fresh lexer succeeds (the end
of input inside a line comment is no error) and gives exactly a `Comment` at (0,2)
followed by `EOF`; and whenever parsing `//` ++ `s` ++ LF ++ `r` succeeds its first
token is that same `Comment` at (0,2). The comment text is `s` without one trailing
CR if `s` ends with CR, and `s` itself otherwise. -/
theorem line_comment_text (s : List Byte) (hs : (10 : Byte) ∉ s) :
    Lexer.fresh.parse (47 :: 47 :: s)
        = Res.ok ([NewToken (if s.getLast? = some 13 then s.dropLast else s) ⟨0, 2⟩
              TokenType.Comment,
            NewToken [] ⟨0, 2 + s.length⟩ TokenType.EOF], none,
            ⟨2 + s.length, 0, ⟨[], none⟩⟩)
    ∧ ∀ (r : List Byte) (ts : List Token) (l' : Lexer),
        Lexer.fresh.parse (47 :: 47 :: (s ++ 10 :: r)) = Res.ok (ts, none, l') →
        ts.head? = some (NewToken (if s.getLast? = some 13 then s.dropLast else s) ⟨0, 2⟩
          TokenType.Comment) := by
  constructor
  · have hno : ¬ [10] <:+: s := fun hi => hs (hi.subset (List.mem_singleton_self _))
    obtain ⟨lb', hsc⟩ := scanUntil_eof_state 10 [] false (by simp) s hno (0 + 2) 0 none []
    simp only [Lexer.parse, Lexer.fresh, NewReader, List.length_cons]
    rw [parseLoop_succ, skipWS_cons_other _ _ _ _ (by decide), dispatch_line_comment, hsc]
    simp only [List.nil_append]
    rw [parseLoop_at_end, advance_no_lf s hs, stripCR_eq]
    simp
  · intro r ts l' h
    have e2 : s ++ 10 :: r = s ++ 10 :: [] ++ r := by simp
    obtain ⟨lb', hsc⟩ := scanUntil_found_state 10 [] false (by simp) s r
      (no_earlier_single 10 s hs) (0 + 2) 0 none []
    simp only [Lexer.parse, Lexer.fresh, NewReader] at h
    rw [parseLoop_succ, skipWS_cons_other _ _ _ _ (by decide), dispatch_line_comment, e2,
      hsc] at h
    simp only [List.nil_append, Bool.false_eq_true, if_false] at h
    obtain ⟨pre, hp, _, _⟩ := parseLoop_success _ _ _ _ _ h
    rw [hp, stripCR_eq]
    simp

theorem line_comment_text_witness :
    (10 : Byte) ∉ bytes " this is comment\r"
    ∧ Lexer.fresh.parse (47 :: 47 :: bytes " this is comment\r")
        = Res.ok ([NewToken (bytes " this is comment") ⟨0, 2⟩ TokenType.Comment,
            NewToken [] ⟨0, 19⟩ TokenType.EOF], none, ⟨19, 0, ⟨[], none⟩⟩) :=
  ⟨by decide, (line_comment_text (bytes " this is comment\r") (by decide)).1⟩


/-! ## Identifier tokens -/

theorem scanWord_text (data : List Byte) : ∀ (col line : Nat) (lb : Option Byte) (buf : List Byte),
    ∃ x, (scanWord col line lb buf data).1 = buf ++ x
      ∧ (∀ b ∈ x, b ≠ 32 ∧ b ≠ 9 ∧ b ≠ 10 ∧ b ≠ 59)
      ∧ ((∀ b ∈ data.head?, isWS b = false ∧ b ≠ 59) → data ≠ [] → x ≠ []) := by
  induction data with
  | nil => intro col line lb buf; exact ⟨[], by simp [scanWord]⟩
  | cons b rest ih =>
    intro col line lb buf
    have hstop : isWS b = true ∨ b = 59 →
        (scanWord col line lb buf (b :: rest)).1 = buf →
        ∃ x, (scanWord col line lb buf (b :: rest)).1 = buf ++ x
          ∧ (∀ y ∈ x, y ≠ 32 ∧ y ≠ 9 ∧ y ≠ 10 ∧ y ≠ 59)
          ∧ ((∀ y ∈ (b :: rest).head?, isWS y = false ∧ y ≠ 59) → b :: rest ≠ [] → x ≠ []) := by
      intro hb e
      refine ⟨[], by rw [e]; simp, by simp, ?_⟩
      intro hh _
      have := hh b (by simp)
      rcases hb with hb | hb
      · rw [this.1] at hb; exact absurd hb (by simp)
      · exact absurd hb this.2
    have hgo : ∀ (lb' : Option Byte), b ≠ 32 → b ≠ 9 → b ≠ 10 → b ≠ 59 →
        scanWord col line lb buf (b :: rest) = scanWord (col + 1) line lb' (buf ++ [b]) rest →
        ∃ x, (scanWord col line lb buf (b :: rest)).1 = buf ++ x
          ∧ (∀ y ∈ x, y ≠ 32 ∧ y ≠ 9 ∧ y ≠ 10 ∧ y ≠ 59)
          ∧ ((∀ y ∈ (b :: rest).head?, isWS y = false ∧ y ≠ 59) → b :: rest ≠ [] → x ≠ []) := by
      intro lb' h1 h2 h3 h4 e
      obtain ⟨x, hx1, hx2, _⟩ := ih (col + 1) line lb' (buf ++ [b])
      refine ⟨b :: x, by rw [e, hx1]; simp, ?_, fun _ _ => List.cons_ne_nil _ _⟩
      intro y hy
      rcases List.mem_cons.mp hy with hy | hy
      · rw [hy]; exact ⟨h1, h2, h3, h4⟩
      · exact hx2 y hy
    by_cases h0 : b = 59
    · exact hstop (Or.inr h0) (by simp [scanWord, h0])
    by_cases h1 : b = 32 ∨ b = 9
    · have hw : isWS b = true := by rcases h1 with e | e <;> (subst e; decide)
      exact hstop (Or.inl hw) (by simp [scanWord, h0, h1])
    by_cases h2 : b = 13
    · by_cases h4 : rest.head? = some 10
      · have hw : isWS b = true := by subst h2; decide
        exact hstop (Or.inl hw) (by simp [scanWord, h2, h4])
      · subst h2
        exact hgo none (by decide) (by decide) (by decide) (by decide)
          (by simp [scanWord, h4])
    by_cases h3 : b = 10
    · have hw : isWS b = true := by subst h3; decide
      exact hstop (Or.inl hw) (by simp [scanWord, h3])
    · simp only [not_or] at h1
      exact hgo (some b) h1.1 h1.2 h3 h0 (by simp [scanWord, h0, h1, h2, h3])

/-- An `Ident` token comes from the identifier branch only, entered on a byte that is
neither whitespace nor `;`; its text is non-empty and has no space, tab, LF or `;`. -/
theorem pass_ident_text (col line : Nat) (data : List Byte) (t : Token) (l' : Lexer)
    (h : dispatch (skipWS col line data) = Pass.append t l') (hty : t.Typ = TokenType.Ident) :
    t.Text ≠ [] ∧ ∀ b ∈ t.Text, b ≠ 32 ∧ b ≠ 9 ∧ b ≠ 10 ∧ b ≠ 59 := by
  obtain ⟨_, _, _, _, _, hhead⟩ := skipWS_spec data col line
  generalize skipWS col line data = l1 at h hhead
  obtain ⟨c, ln, ⟨d, lb1⟩⟩ := l1
  simp only at hhead
  rcases switch_cases d with ⟨rest, rfl⟩ | ⟨rest, rfl⟩ | ⟨q, rest, hq, rfl⟩
    | ⟨p, rest, hp, rfl⟩ | rfl | hw
  · rw [dispatch_line_comment] at h
    injection h with h1 h2
    subst h1
    simp [NewToken] at hty
  · rw [dispatch_block_comment] at h
    split at h
    · exact absurd h (by simp)
    · injection h with h1 h2
      subst h1
      simp [NewToken] at hty
  · rw [dispatch_string q hq] at h
    split at h
    · exact absurd h (by simp)
    · injection h with h1 h2
      subst h1
      simp [NewToken] at hty
  · rw [dispatch_punct p hp] at h
    injection h with h1 h2
    subst h1
    simp only [NewToken] at hty
    split_ifs at hty
  · rw [dispatch_nil] at h
    exact absurd h (by simp)
  · rw [dispatch_word _ _ _ _ hw] at h
    injection h with h1 h2
    subst h1
    obtain ⟨x, hx1, hx2, hx3⟩ := scanWord_text d c ln none []
    simp only [NewToken, List.nil_append] at hx1 ⊢
    rw [hx1]
    refine ⟨hx3 ?_ hw.1, hx2⟩
    intro b hb
    refine ⟨hhead b hb, ?_⟩
    intro e
    exact hw.2.2.2.2.2.2.2 (by rw [← e]; simpa using hb)

/-- A property of tokens that every pass establishes for the token it appends, and
that the `EOF` token has, holds for every token of a successful result. -/
theorem parseLoop_tokens_inv (P : Token → Prop)
    (hP : ∀ (col line : Nat) (data : List Byte) (t : Token) (l' : Lexer),
      dispatch (skipWS col line data) = Pass.append t l' → P t)
    (hE : ∀ pos : Position, P (NewToken [] pos TokenType.EOF)) (fuel : Nat) :
    ∀ (l : Lexer) (tokens ts : List Token) (l' : Lexer),
      Lexer.parseLoop fuel l tokens = Res.ok (ts, none, l') →
      (∀ t ∈ tokens, P t) → ∀ t ∈ ts, P t := by
  induction fuel with
  | zero => intro l tokens ts l' h; simp [Lexer.parseLoop] at h
  | succ fuel ih =>
    intro l tokens ts l' h htok
    obtain ⟨col, line, ⟨data, lb⟩⟩ := l
    rw [parseLoop_succ] at h
    cases hd : dispatch (skipWS col line data) with
    | append t l1 =>
      rw [hd] at h
      apply ih l1 _ ts l' h
      intro x hx
      rcases List.mem_append.mp hx with hx | hx
      · exact htok x hx
      · rw [List.mem_singleton.mp hx]; exact hP _ _ _ _ _ hd
    | done t l1 =>
      rw [hd] at h
      simp only [Res.ok.injEq, Prod.mk.injEq] at h
      obtain ⟨e1, _, _⟩ := pass_done _ _ _ _ _ hd
      intro x hx
      rw [← h.1] at hx
      rcases List.mem_append.mp hx with hx | hx
      · exact htok x hx
      · rw [List.mem_singleton.mp hx, e1]; exact hE _
    | fail e l1 =>
      rw [hd] at h
      simp at h

/-- C13 (the code departs from the claim): a CR that is not followed by LF does not
stop the identifier scan and is written into the text, so `a CR b` is the single token
`Ident` with a CR inside its text. `EatWhiteSpace` does treat a lone CR as whitespace:
`CR b` gives `Ident(b)` at (0,1). -/
theorem ident_text_may_hold_CR :
    Lexer.fresh.parse (bytes "a\rb")
        = Res.ok ([NewToken (bytes "a\rb") ⟨0, 0⟩ TokenType.Ident,
            NewToken [] ⟨0, 3⟩ TokenType.EOF], none, ⟨3, 0, ⟨[], none⟩⟩)
    ∧ (NewToken (bytes "a\rb") ⟨0, 0⟩ TokenType.Ident).Typ = TokenType.Ident
    ∧ (13 : Byte) ∈ (NewToken (bytes "a\rb") ⟨0, 0⟩ TokenType.Ident).Text
    ∧ Lexer.fresh.parse (bytes "\rb")
        = Res.ok ([NewToken (bytes "b") ⟨0, 1⟩ TokenType.Ident,
            NewToken [] ⟨0, 2⟩ TokenType.EOF], none, ⟨2, 0, ⟨[], none⟩⟩) := by
  decide

/-- The other separators never get into an identifier: on every input on which
`parse` succeeds the text of every `Ident` token has no space, tab, LF or `;` byte. -/
theorem ident_text_has_no_separator (l : Lexer) (data : List Byte) (ts : List Token)
    (l' : Lexer) (h : l.parse data = Res.ok (ts, none, l')) :
    ∀ t ∈ ts, t.Typ = TokenType.Ident → ∀ b ∈ t.Text, b ≠ 32 ∧ b ≠ 9 ∧ b ≠ 10 ∧ b ≠ 59 := by
  refine parseLoop_tokens_inv
    (fun t => t.Typ = TokenType.Ident → ∀ b ∈ t.Text, b ≠ 32 ∧ b ≠ 9 ∧ b ≠ 10 ∧ b ≠ 59)
    ?_ ?_ _ _ _ ts l' h (by simp)
  · intro col line d t l1 hd hty
    exact (pass_ident_text col line d t l1 hd hty).2
  · intro pos hty
    simp [NewToken] at hty

/-- C20: on every input on which `parse` succeeds, every `Ident` token has non-empty
text: after `EatWhiteSpace` the identifier branch is entered only with a next byte that
is none of space, tab, CR, LF or `;`, and that byte is always accumulated. -/
theorem ident_text_nonempty (l : Lexer) (data : List Byte) :
    (∀ (ts : List Token) (l' : Lexer), l.parse data = Res.ok (ts, none, l') →
      ∀ t ∈ ts, t.Typ = TokenType.Ident → t.Text ≠ [])
    ∧ (∀ col line : Nat, wordStart (skipWS col line data).buf.data →
        ∃ b rest, (skipWS col line data).buf.data = b :: rest ∧ isWS b = false ∧ b ≠ 59
          ∧ ∃ x, (scanWord (skipWS col line data).col (skipWS col line data).line none []
                (b :: rest)).1 = b :: x) := by
  constructor
  · intro ts l' h
    refine parseLoop_tokens_inv (fun t => t.Typ = TokenType.Ident → t.Text ≠ [])
      ?_ ?_ _ _ _ ts l' h (by simp)
    · intro col line d t l1 hd hty
      exact (pass_ident_text col line d t l1 hd hty).1
    · intro pos hty
      simp [NewToken] at hty
  · intro col line hw
    obtain ⟨_, _, _, _, _, hhead⟩ := skipWS_spec data col line
    cases hd : (skipWS col line data).buf.data with
    | nil => exact absurd hd hw.1
    | cons b rest =>
      rw [hd] at hhead hw
      have hb : isWS b = false := hhead b (by simp)
      have h59 : b ≠ 59 := fun e => hw.2.2.2.2.2.2.2 (by simp [e])
      obtain ⟨h1, h2, h3, h4⟩ := (isWS_false_iff b).mp hb
      refine ⟨b, rest, rfl, hb, h59, ?_⟩
      obtain ⟨x, hx, _⟩ := scanWord_text rest ((skipWS col line data).col + 1)
        (skipWS col line data).line (some b) ([] ++ [b])
      refine ⟨x, ?_⟩
      rw [scanWord]
      simp only [h1, h2, h3, h4, h59, if_false, or_self]
      rw [hx]
      simp

theorem ident_text_nonempty_witness :
    Lexer.fresh.parse (bytes " a;")
        = Res.ok ([NewToken (bytes "a") ⟨0, 1⟩ TokenType.Ident,
            NewToken [59] ⟨0, 2⟩ TokenType.Semicolon,
            NewToken [] ⟨0, 3⟩ TokenType.EOF], none, ⟨3, 0, ⟨[], none⟩⟩)
    ∧ 0 < (NewToken (bytes "a") ⟨0, 1⟩ TokenType.Ident).Text.length :=
  ⟨by decide,
    List.length_pos.mpr ((ident_text_nonempty Lexer.fresh (bytes " a;")).1
      [NewToken (bytes "a") ⟨0, 1⟩ TokenType.Ident, NewToken [59] ⟨0, 2⟩ TokenType.Semicolon,
        NewToken [] ⟨0, 3⟩ TokenType.EOF]
      ⟨3, 0, ⟨[], none⟩⟩ (by decide) (NewToken (bytes "a") ⟨0, 1⟩ TokenType.Ident)
      (by decide) rfl)⟩

/-- C19: brackets, quotes and comment openers are recognised only at the start of a
token. For an identifier word `w`, parsing `w` from a fresh lexer gives exactly
`Ident(w)` at (0,0) and `EOF` at (0,|w|), whatever `w` contains after its first byte;
`server{` is the single identifier `server{` and no `LBracket` is produced. -/
theorem word_is_one_ident (w : List Byte) (h : identWord w) :
    Lexer.fresh.parse w
        = Res.ok ([NewToken w ⟨0, 0⟩ TokenType.Ident,
            NewToken [] ⟨0, w.length⟩ TokenType.EOF], none, ⟨w.length, 0, ⟨[], none⟩⟩)
    ∧ Lexer.fresh.parse (bytes "server\x7b")
        = Res.ok ([NewToken (bytes "server\x7b") ⟨0, 0⟩ TokenType.Ident,
            NewToken [] ⟨0, 7⟩ TokenType.EOF], none, ⟨7, 0, ⟨[], none⟩⟩) := by
  refine ⟨?_, by decide⟩
  obtain ⟨lb', hp⟩ := pass_word w [] h (by simp) 0 0
  simp only [List.append_nil] at hp
  obtain ⟨k, hk⟩ : ∃ k, w.length = k + 1 :=
    ⟨w.length - 1, (Nat.succ_pred_eq_of_pos (List.length_pos.mpr h.1)).symm⟩
  simp only [Lexer.parse, Lexer.fresh, NewReader]
  rw [parseLoop_succ, hp]
  simp only [scanWord]
  rw [hk, parseLoop_at_end]
  simp

theorem word_is_one_ident_witness :
    identWord (bytes "a\x7b\"b/*c//")
    ∧ Lexer.fresh.parse (bytes "a\x7b\"b/*c//")
        = Res.ok ([NewToken (bytes "a\x7b\"b/*c//") ⟨0, 0⟩ TokenType.Ident,
            NewToken [] ⟨0, 9⟩ TokenType.EOF], none, ⟨9, 0, ⟨[], none⟩⟩) :=
  ⟨by decide, (word_is_one_ident (bytes "a\x7b\"b/*c//") (by decide)).1⟩


/-! ## Termination and the unreachable failure branches -/

/-- C17: `parse` terminates on every input. Every pass of its loop returns a result
(the inner loops never run out of fuel), and a pass that goes on leaves strictly fewer
unread bytes; so `len(data) + 1` passes always suffice for `parse` to return, and more
fuel changes nothing. -/
theorem parse_terminates (l : Lexer) :
    (∃ p, l.parsePass = Res.ok p)
    ∧ (∀ (t : Token) (l' : Lexer), l.parsePass = Res.ok (Pass.append t l') →
        l'.buf.data.length < l.buf.data.length)
    ∧ (∀ data : List Byte, ∃ ts err l', l.parse data = Res.ok (ts, err, l'))
    ∧ (∀ (data : List Byte) (fuel : Nat), data.length < fuel →
        Lexer.parseLoop fuel { l with buf := NewReader data } [] = l.parse data) := by
  obtain ⟨col, line, ⟨d, lb⟩⟩ := l
  refine ⟨⟨_, parsePass_eq col line d lb⟩, ?_, ?_, ?_⟩
  · intro t l' h
    rw [parsePass_eq] at h
    injection h with h
    obtain ⟨_, c, hc0, hc1, _⟩ := pass_append _ _ _ _ _ h
    have hpos : 0 < c.length := List.length_pos.mpr hc0
    have e : d.length = c.length + l'.buf.data.length := by
      rw [hc1, List.length_append]
    simp only
    omega
  · intro data
    obtain ⟨⟨ts, err, l'⟩, hr⟩ :=
      parseLoop_returns (data.length + 1) ⟨col, line, NewReader data⟩ [] (by simp [NewReader])
    exact ⟨ts, err, l', hr⟩
  · intro data fuel hf
    exact parseLoop_fuel _ _ _ _ (by simpa [NewReader] using hf) (by simp [NewReader])

theorem dispatch_fail_err (l l' : Lexer) (e : Error) (h : dispatch l = Pass.fail e l') :
    e = Error.ErrPos l'.line l'.col Error.EOF := by
  obtain ⟨col, line, ⟨data, lb⟩⟩ := l
  have key : ∀ (d : Byte) (tl : List Byte) (c : Nat) (rest : List Byte) (e0 : Error),
      (10 : Byte) ∉ tl →
      (scanUntil d tl false c line none [] rest).2.1 = some e0 → e0 = Error.EOF := by
    intro d tl c rest e0 htl h1
    obtain ⟨_, _, _, h3, _⟩ := scanUntil_spec d tl false htl rest c line none []
    rcases h3 with h3 | h3
    · rw [h3] at h1; exact absurd h1 (by simp)
    · rw [h3] at h1; injection h1 with h1; exact h1.symm
  rcases switch_cases data with ⟨rest, rfl⟩ | ⟨rest, rfl⟩ | ⟨q, rest, hq, rfl⟩
    | ⟨p, rest, hp, rfl⟩ | rfl | hw
  · rw [dispatch_line_comment] at h; exact absurd h (by simp)
  · rw [dispatch_block_comment] at h
    split at h
    · rename_i e0 he0
      have := key _ _ _ _ _ (by decide) he0
      subst this
      injection h with h1 h2
      rw [← h1, ← h2]
      rfl
    · exact absurd h (by simp)
  · rw [dispatch_string q hq] at h
    split at h
    · rename_i e0 he0
      have := key _ _ _ _ _ (by simp) he0
      subst this
      injection h with h1 h2
      rw [← h1, ← h2]
      rfl
    · exact absurd h (by simp)
  · rw [dispatch_punct p hp] at h; exact absurd h (by simp)
  · rw [dispatch_nil] at h; exact absurd h (by simp)
  · rw [dispatch_word _ _ _ _ hw] at h; exact absurd h (by simp)

theorem parseLoop_error_form (fuel : Nat) :
    ∀ (l : Lexer) (tokens ts : List Token) (e : Error) (l' : Lexer),
      Lexer.parseLoop fuel l tokens = Res.ok (ts, some e, l') →
      e = Error.ErrPos l'.line l'.col Error.EOF := by
  induction fuel with
  | zero => intro l tokens ts e l' h; simp [Lexer.parseLoop] at h
  | succ fuel ih =>
    intro l tokens ts e l' h
    obtain ⟨col, line, ⟨data, lb⟩⟩ := l
    rw [parseLoop_succ] at h
    cases hd : dispatch (skipWS col line data) with
    | append t l1 =>
      rw [hd] at h
      exact ih l1 _ ts e l' h
    | done t l1 =>
      rw [hd] at h
      simp at h
    | fail e1 l1 =>
      rw [hd] at h
      simp only [Res.ok.injEq, Prod.mk.injEq, Option.some.injEq] at h
      obtain ⟨_, h2, h3⟩ := h
      subst h2 h3
      exact dispatch_fail_err _ _ _ hd

/-- C18: no `Discard` call reached during `parse` finds fewer bytes than it is asked
to skip, in `EatWhiteSpace` as elsewhere, so `parse` never panics; and the `UnreadByte`
of `ReadUntilWhiteSpace` always follows a successful `ReadByte`, so that function
returns no error or `io.EOF`, never the `[Bug]` error, and every error of `parse` is a
positioned `io.EOF`. -/
theorem no_panic_no_bug_error (l : Lexer) :
    (∃ l', l.EatWhiteSpace = Res.ok l')
    ∧ (∃ p, l.parsePass = Res.ok p)
    ∧ (∀ data : List Byte, l.parse data ≠ Res.panic)
    ∧ (∃ text err l', l.ReadUntilWhiteSpace = Res.ok (text, err, l')
        ∧ (err = none ∨ err = some Error.EOF))
    ∧ (∀ (data : List Byte) (ts : List Token) (e : Error) (l' : Lexer),
        l.parse data = Res.ok (ts, some e, l') → e = Error.ErrPos l'.line l'.col Error.EOF) := by
  obtain ⟨col, line, ⟨d, lb⟩⟩ := l
  refine ⟨⟨_, EatWhiteSpace_eq col line d lb⟩, ⟨_, parsePass_eq col line d lb⟩, ?_, ?_, ?_⟩
  · intro data hp
    obtain ⟨r, hr⟩ :=
      parseLoop_returns (data.length + 1) ⟨col, line, NewReader data⟩ [] (by simp [NewReader])
    have : Lexer.parse ⟨col, line, ⟨d, lb⟩⟩ data = Res.ok r := hr
    rw [this] at hp
    exact absurd hp (by simp)
  · obtain ⟨_, _, _, h3, _⟩ := scanWord_spec d col line lb []
    exact ⟨_, _, _, ReadUntilWhiteSpace_eq col line d lb, h3⟩
  · intro data ts e l' h
    exact parseLoop_error_form _ _ _ _ _ _ h

end token
